import Mathlib

/-!
Verification development for the DecodeGEMV scheduling rule
(python/tvm/dlight/gpu/decode_gemv.py).

The data model (expressions, regions, blocks) and the functions of the
rule are embedded shallowly.  External collaborators of the rule (the
arith iteration-sum normalizer, the device thread advisor, and the
structural effect of the schedule primitives split / fuse / reorder /
rfactor / reverse-compute-at) are modelled from their documented
interfaces; the decision logic of the rule itself is translated
line by line from the source.
-/

/-- Decidable equality on `Except`, needed to evaluate the modelled
fallible functions on concrete inputs. -/
instance exceptDecEq {ε α : Type} [DecidableEq ε] [DecidableEq α] :
    DecidableEq (Except ε α) := fun x y =>
  match x, y with
  | .ok a, .ok b =>
      if h : a = b then isTrue (by rw [h])
      else isFalse (by intro he; cases he; exact h rfl)
  | .error a, .error b =>
      if h : a = b then isTrue (by rw [h])
      else isFalse (by intro he; cases he; exact h rfl)
  | .ok _, .error _ => isFalse (by intro he; cases he)
  | .error _, .ok _ => isFalse (by intro he; cases he)

namespace DecodeGemv

/-- Expression trees of the IR substrate.  Multi-dimensional buffer-load
indices are encoded as a right-nested pair list; `op1` and `op2` stand
for the remaining unary and binary operators (cast, shift, bitwise-and,
subtract, ...), identified by a numeric tag. -/
inductive PExpr where
  | var (v : Nat)
  | intConst (c : Int)
  | add (a b : PExpr)
  | mul (a b : PExpr)
  | load (buf : Nat) (index : PExpr)
  | pair (a b : PExpr)
  | unitE
  | op1 (tag : Nat) (a : PExpr)
  | op2 (tag : Nat) (a b : PExpr)
deriving DecidableEq

/-- Structural equality with free-variable remapping
(`ir.structural_equal(..., map_free_vars=True)`): the map pairs
left-hand variables with right-hand variables, is built at first
encounter and must stay a bijection. -/
def structEqAux : PExpr → PExpr → List (Nat × Nat) → Option (List (Nat × Nat))
  | .var a, .var b, m =>
    match m.lookup a with
    | some b2 => if b2 = b then some m else none
    | none => if m.any (fun p => p.2 = b) then none else some ((a, b) :: m)
  | .intConst a, .intConst b, m => if a = b then some m else none
  | .add a1 a2, .add b1 b2, m => (structEqAux a1 b1 m).bind (fun m2 => structEqAux a2 b2 m2)
  | .mul a1 a2, .mul b1 b2, m => (structEqAux a1 b1 m).bind (fun m2 => structEqAux a2 b2 m2)
  | .load ba ia, .load bb ib, m => if ba = bb then structEqAux ia ib m else none
  | .pair a1 a2, .pair b1 b2, m => (structEqAux a1 b1 m).bind (fun m2 => structEqAux a2 b2 m2)
  | .unitE, .unitE, m => some m
  | .op1 ta a, .op1 tb b, m => if ta = tb then structEqAux a b m else none
  | .op2 ta a1 a2, .op2 tb b1 b2, m =>
      if ta = tb then (structEqAux a1 b1 m).bind (fun m2 => structEqAux a2 b2 m2) else none
  | _, _, _ => none

def structural_equal (a b : PExpr) : Bool := (structEqAux a b []).isSome

/-- Set of variables occurring in an expression (post-order visit). -/
def varsOf : PExpr → Finset Nat
  | .var v => {v}
  | .intConst _ => ∅
  | .add a b => varsOf a ∪ varsOf b
  | .mul a b => varsOf a ∪ varsOf b
  | .load _ i => varsOf i
  | .pair a b => varsOf a ∪ varsOf b
  | .unitE => ∅
  | .op1 _ a => varsOf a
  | .op2 _ a b => varsOf a ∪ varsOf b

/-- One dimension of an access region: a minimum offset and an extent
(`ir.Range`). -/
structure RangeE where
  min : PExpr
  extent : Int
deriving DecidableEq

/-- A buffer: identity plus shape (the shape induces the row-major
strides used by `offset_of`). -/
structure BufferE where
  id : Nat
  shape : List Int
deriving DecidableEq

/-- A buffer access region (`tir.BufferRegion`). -/
structure BufferRegionE where
  buffer : BufferE
  region : List RangeE
deriving DecidableEq

/-- A block body: either a buffer store or anything else. -/
inductive StmtE where
  | store (buffer : BufferE) (value : PExpr) (indices : List PExpr)
  | other
deriving DecidableEq

/-- Iteration-variable kinds: spatial, reduce, or opaque. -/
inductive IterKind where
  | S
  | R
  | O
deriving DecidableEq

/-- An iteration variable with its domain size and kind; used both for
`tir` iter-vars and for the dlight `BlockInfo` iteration descriptors. -/
structure IterInfoE where
  var : Nat
  dom : Int
  kind : IterKind
deriving DecidableEq

/-- A `tir.Block`: iteration variables, read and write regions, body. -/
structure BlockE where
  iter_vars : List IterInfoE
  reads : List BufferRegionE
  writes : List BufferRegionE
  body : StmtE
deriving DecidableEq

/-- The dlight `BlockInfo` wrapper around a block. -/
structure BlockInfoE where
  is_injective : Bool
  is_reduction : Bool
  iters : List IterInfoE
  block : BlockE
deriving DecidableEq

/-- Encode a list of store indices as the nested-pair index expression
used by the `load` node. -/
def listToIndex (l : List PExpr) : PExpr := l.foldr PExpr.pair PExpr.unitE

/-- Translation of `_get_reduction_expr`: detect and return `Y` in
`X[...] = X[...] + Y`, comparing the left operand of the addition
structurally (with variable renaming) against a fresh load of the same
buffer at the same indices. -/
def get_reduction_expr (b : BlockE) : Option PExpr :=
  match b.body with
  | .store buf (.add x y) idx =>
      if structural_equal x (.load buf.id (listToIndex idx)) then some y else none
  | _ => none

/-- Translation of `_collect_vars_used_in_access_region`: every range of
the region must have extent 1 (an `assert` in the source, modelled as
the error case); the variables of all the minimum offsets are
collected. -/
def collect_vars_used_in_access_region : List RangeE → Except Unit (Finset Nat)
  | [] => Except.ok ∅
  | r :: rs =>
      if r.extent = 1 then
        match collect_vars_used_in_access_region rs with
        | Except.ok s => Except.ok (varsOf r.min ∪ s)
        | Except.error e => Except.error e
      else Except.error ()

/-- The variable set of a region, ignoring the extent assertion. -/
def regionVarSet (rs : List RangeE) : Finset Nat :=
  rs.foldr (fun r s => varsOf r.min ∪ s) ∅

/-- Number of distinct iteration variables referenced by a read. -/
def readVarCount (r : BufferRegionE) : Nat := (regionVarSet r.region).card

/-- The fold of `_detect_dominant_read`: keep the read with the largest
distinct-variable count, a later read replacing the current one only on
a strictly larger count. -/
def detectLoop : List BufferRegionE → Option BufferRegionE → Int →
    Except Unit (Option BufferRegionE)
  | [], best, _ => Except.ok best
  | r :: rs, best, n =>
      match collect_vars_used_in_access_region r.region with
      | Except.error e => Except.error e
      | Except.ok vs =>
          if n < (vs.card : Int) then detectLoop rs (some r) (vs.card : Int)
          else detectLoop rs best n

/-- Row-major linearization step used by `Buffer.offset_of`. -/
def offsetGo : PExpr → List PExpr → List Int → PExpr
  | acc, [], _ => acc
  | acc, i :: is, s :: ss => offsetGo (.add (.mul acc (.intConst s)) i) is ss
  | acc, i :: is, [] => offsetGo (.add acc i) is []

/-- The flattened linear offset of an index vector into a buffer
(`Buffer.offset_of` on a compact buffer). -/
def offset_of (b : BufferE) (indices : List PExpr) : PExpr :=
  match indices with
  | [] => .intConst 0
  | i :: is => offsetGo i is (b.shape.drop 1)

/-- Translation of `_detect_dominant_read`: fold over the reads; the
`assert dominant_read is not None` of the source is the error case. -/
def detect_dominant_read (blk : BlockE) : Except Unit PExpr :=
  match detectLoop blk.reads none (-1) with
  | Except.error e => Except.error e
  | Except.ok none => Except.error ()
  | Except.ok (some r) => Except.ok (offset_of r.buffer (r.region.map RangeE.min))

/-- Largest distinct-variable count among a list of reads. -/
def maxReadCount (rs : List BufferRegionE) : Nat :=
  (rs.map readVarCount).foldr max 0

/-- Modelled from the spec words for the dominant read (C4): the
earliest read whose index expressions reference the largest number of
distinct iteration variables. -/
def dominant_read_spec (rs : List BufferRegionE) : Option BufferRegionE :=
  rs.find? (fun r => readVarCount r == maxReadCount rs)

/-- Number of non-trivial (domain size other than 1) iteration
variables of a block. -/
def nontrivialCount (epi : BlockE) : Nat :=
  (epi.iter_vars.filter (fun i => i.dom != 1)).length

/-- The read scan of `_is_broadcast_epilogue`. -/
def broadcastGo (writeIds : List Nat) (nIters : Nat) :
    List BufferRegionE → Except Unit Bool
  | [] => Except.ok false
  | r :: rs =>
      if writeIds.contains r.buffer.id then
        match collect_vars_used_in_access_region r.region with
        | Except.error e => Except.error e
        | Except.ok vs =>
            if vs.card < nIters then Except.ok true
            else broadcastGo writeIds nIters rs
      else broadcastGo writeIds nIters rs

/-- Translation of `_is_broadcast_epilogue`: an epilogue read of a
buffer written by the producer whose distinct-variable count is smaller
than the number of non-trivial epilogue iteration variables yields
`true`. -/
def is_broadcast_epilogue (blk epi : BlockE) : Except Unit Bool :=
  broadcastGo (blk.writes.map (fun w => w.buffer.id)) (nontrivialCount epi) epi.reads

/-- The set of non-trivial iteration variables of a block. -/
def nontrivialIterSet (epi : BlockE) : Finset Nat :=
  (epi.iter_vars.filter (fun i => i.dom != 1)).foldr (fun i s => insert i.var s) ∅

/-- Modelled from the spec words for the broadcast check (C2): some
epilogue read of a producer-written buffer references a set of distinct
iteration variables that is a strict subset of the own non-trivial
iteration variables of the epilogue. -/
def broadcast_spec (blk epi : BlockE) : Prop :=
  ∃ r ∈ epi.reads,
    r.buffer.id ∈ blk.writes.map (fun w => w.buffer.id) ∧
    regionVarSet r.region ⊂ nontrivialIterSet epi

instance broadcastSpecDec (blk epi : BlockE) : Decidable (broadcast_spec blk epi) := by
  unfold broadcast_spec
  infer_instance

/-- One term of the iteration sum produced by
`arith.normalize_to_iter_sum`: a source iteration variable and the
lower factor of its split (1 when the whole variable is used). -/
structure IterSplit where
  source : Nat
  lowerFactor : Int
deriving DecidableEq

/-- The iteration sum: ordered terms plus a constant base. -/
structure IterSum where
  args : List IterSplit
  base : Int
deriving DecidableEq

/-- A loop random variable of the schedule, with its extent. -/
structure LoopRV where
  id : Nat
  extent : Int
deriving DecidableEq, Repr

/-- The schedule primitives invoked by the rule, recorded as a trace. -/
inductive SchOp where
  | split (l o i : LoopRV)
  | split3 (l o a b : LoopRV)
  | fuse (ls : List LoopRV) (res : LoopRV)
  | reorder (ls : List LoopRV)
  | bind (l : LoopRV) (tag : String)
  | rfactor (l : LoopRV) (axis : Nat)
  | setScope (blk : Nat) (idx : Nat) (scope : String)
  | decomposeReduction (l : LoopRV)
  | reverseComputeAt (blk : Nat) (anchor : LoopRV)
  | addUnitLoop
deriving DecidableEq, Repr

/-- Block identifiers inside the schedule: 0 the producer block, 1 the
reduction-factored block, 2 the epilogue block. -/
def mainBlk : Nat := 0
def rfBlk : Nat := 1
def epiBlk : Nat := 2

/-- The schedule state: loop nests of the three blocks, bookkeeping for
the structural effect of rfactor and reverse-compute-at, and the trace
of emitted primitives. -/
structure SchedState where
  nextId : Nat
  mainLoops : List LoopRV
  rfLoops : List LoopRV
  epiLoops : List LoopRV
  rfFactorExt : Int
  origSpatialProd : Int
  epiSpatialProd : Int
  trace : List SchOp
  failed : Bool
deriving DecidableEq

/-- Replace a loop by a list of loops inside a loop nest. -/
def replaceLoop (l : LoopRV) (new : List LoopRV) : List LoopRV → List LoopRV
  | [] => []
  | x :: xs => if x = l then new ++ xs else x :: replaceLoop l new xs

/-- Fuse a group of loops in place: the first member is replaced by the
fused loop and the other members are dropped. -/
def fuseGo (ls : List LoopRV) (res : LoopRV) : List LoopRV → Bool → List LoopRV
  | [], _ => []
  | x :: xs, placed =>
      if ls.contains x then
        if placed then fuseGo ls res xs true else res :: fuseGo ls res xs true
      else x :: fuseGo ls res xs placed

def fuseIn (ls : List LoopRV) (res : LoopRV) (cur : List LoopRV) : List LoopRV :=
  fuseGo ls res cur false

/-- Reorder: the positions occupied by members of the order list are
refilled with the order list in sequence; other loops stay in place. -/
def reorderGo (ord : List LoopRV) : List LoopRV → List LoopRV → List LoopRV
  | [], _ => []
  | x :: xs, q =>
      if ord.contains x then
        match q with
        | y :: q2 => y :: reorderGo ord xs q2
        | [] => x :: reorderGo ord xs []
      else x :: reorderGo ord xs q

def reorderIn (ord cur : List LoopRV) : List LoopRV := reorderGo ord cur ord

/-- Extent of the outer loop of a two-way split with a fixed inner
factor. -/
def splitOuter (e f : Int) : Int := (e + f - 1) / f

/-- Apply a loop-nest rewrite to every block of the schedule (a loop
lives in exactly one nest). -/
def onAllLoops (g : List LoopRV → List LoopRV) (st : SchedState) : SchedState :=
  { st with mainLoops := g st.mainLoops, rfLoops := g st.rfLoops, epiLoops := g st.epiLoops }

/-- Modelled from the spec, interface of `split(loop, factors=[None, f])`:
the loop is replaced by an outer loop and an inner loop of extent `f`. -/
def schSplit (l : LoopRV) (f : Int) (st : SchedState) : (LoopRV × LoopRV) × SchedState :=
  let o : LoopRV := ⟨st.nextId, splitOuter l.extent f⟩
  let i : LoopRV := ⟨st.nextId + 1, f⟩
  ((o, i),
    { onAllLoops (replaceLoop l [o, i]) st with
      nextId := st.nextId + 2, trace := st.trace ++ [.split l o i] })

/-- Modelled from the spec, interface of
`split(loop, factors=[None, f1, f2])`. -/
def schSplit3 (l : LoopRV) (f1 f2 : Int) (st : SchedState) :
    (LoopRV × LoopRV × LoopRV) × SchedState :=
  let o : LoopRV := ⟨st.nextId, splitOuter l.extent (f1 * f2)⟩
  let a : LoopRV := ⟨st.nextId + 1, f1⟩
  let b : LoopRV := ⟨st.nextId + 2, f2⟩
  ((o, a, b),
    { onAllLoops (replaceLoop l [o, a, b]) st with
      nextId := st.nextId + 3, trace := st.trace ++ [.split3 l o a b] })

def prodExtents (ls : List LoopRV) : Int := ls.foldr (fun l a => l.extent * a) 1

/-- Modelled from the spec, interface of `fuse(loops)`: the loops are
replaced by one loop whose extent is the product of theirs. -/
def schFuse (ls : List LoopRV) (st : SchedState) : LoopRV × SchedState :=
  let res : LoopRV := ⟨st.nextId, prodExtents ls⟩
  (res,
    { onAllLoops (fuseIn ls res) st with
      nextId := st.nextId + 1, trace := st.trace ++ [.fuse ls res] })

def schReorder (ord : List LoopRV) (st : SchedState) : SchedState :=
  { onAllLoops (reorderIn ord) st with trace := st.trace ++ [.reorder ord] }

def schBind (l : LoopRV) (tag : String) (st : SchedState) : SchedState :=
  { st with trace := st.trace ++ [.bind l tag] }

def schSetScope (blk idx : Nat) (scope : String) (st : SchedState) : SchedState :=
  { st with trace := st.trace ++ [.setScope blk idx scope] }

def schDecomposeReduction (l : LoopRV) (st : SchedState) : SchedState :=
  { st with trace := st.trace ++ [.decomposeReduction l] }

/-- Mint fresh loop variables mirroring the extents of a loop nest. -/
def freshMirror : List LoopRV → Nat → List LoopRV × Nat
  | [], n => ([], n)
  | l :: ls, n =>
      let (rest, n2) := freshMirror ls (n + 1)
      (⟨n, l.extent⟩ :: rest, n2)

/-- Modelled from the spec, interface of `rfactor(loop, 0)`: a new
reduction-factored block is created under a fresh loop nest mirroring
the current nest of the producer; the extent of the factored loop is
remembered, it becomes the remaining reduction domain of the producer
(now the combine block). -/
def schRFactor (l : LoopRV) (axis : Nat) (st : SchedState) : SchedState :=
  let (nl, n2) := freshMirror st.mainLoops st.nextId
  { st with
    nextId := n2, rfLoops := nl, rfFactorExt := l.extent,
    trace := st.trace ++ [.rfactor l axis] }

/-- Modelled from the spec, interface of
`reverse_compute_at(block, anchor, preserve_unit_loops=True)` for the
combine block: the block is placed under the anchor, with a fresh loop
over the factored reduction domain followed by a fresh loop over the
spatial remainder not covered by the anchor. -/
def schReverseComputeAtMain (anchor : LoopRV) (st : SchedState) : SchedState :=
  let rl : LoopRV := ⟨st.nextId, st.rfFactorExt⟩
  let sl : LoopRV := ⟨st.nextId + 1, st.origSpatialProd / anchor.extent⟩
  { st with
    nextId := st.nextId + 2, mainLoops := [anchor, rl, sl],
    trace := st.trace ++ [.reverseComputeAt mainBlk anchor] }

/-- Modelled from the spec, interface of `reverse_compute_at` for the
epilogue block: the block is placed under the anchor with a fresh loop
over its spatial remainder. -/
def schReverseComputeAtEpi (anchor : LoopRV) (st : SchedState) : SchedState :=
  let sl : LoopRV := ⟨st.nextId, st.epiSpatialProd / anchor.extent⟩
  { st with
    nextId := st.nextId + 1, epiLoops := [anchor, sl],
    trace := st.trace ++ [.reverseComputeAt epiBlk anchor] }

/-- Modelled from the spec, interface of `add_unit_loop(block)`: a fresh
extent-1 loop is added innermost on the producer. -/
def schAddUnitLoop (st : SchedState) : LoopRV × SchedState :=
  let u : LoopRV := ⟨st.nextId, 1⟩
  (u,
    { st with
      nextId := st.nextId + 1, mainLoops := st.mainLoops ++ [u],
      trace := st.trace ++ [.addUnitLoop] })

/-- Intermediate state of `_normalize`: schedule, remaining iteration
variables keyed by variable (insertion-ordered, as a Python dict), the
spatial, reduction and micro-tile loop groups, the micro-tile extent
and the kind flag of the last processed term. -/
structure NormSt where
  sched : SchedState
  iterMap : List (IterInfoE × LoopRV)
  sLoops : List LoopRV
  rLoops : List LoopRV
  cLoops : List LoopRV
  cFactor : Option Int
  isInner : Option Bool
deriving DecidableEq

inductive NormAbort where
  | noMatch
  | fatal
deriving DecidableEq

/-- Remove the first entry with the given variable from the iteration
map (`dict.pop`; the missing-key error is the `none` case). -/
def popVar (v : Nat) : List (IterInfoE × LoopRV) →
    Option ((IterInfoE × LoopRV) × List (IterInfoE × LoopRV))
  | [] => none
  | p :: ps =>
      if p.1.var = v then some (p, ps)
      else
        match popVar v ps with
        | none => none
        | some (q, rest) => some (q, p :: rest)

/-- Successor state of one `_normalize` term carrying a lower factor
above 1 (lines 159-165 followed by 166-169): split the governing loop,
record the micro-tile loop, and route the outer loop by kind. -/
def stepStateSplit (a : IterSplit) (info : IterInfoE) (loop0 : LoopRV)
    (m2 : List (IterInfoE × LoopRV)) (st : NormSt) : NormSt :=
  let isR : Bool := info.kind == IterKind.R
  let ((o, c), sch2) := schSplit loop0 a.lowerFactor st.sched
  { sched := sch2, iterMap := m2,
    sLoops := if isR then st.sLoops else st.sLoops ++ [o],
    rLoops := if isR then st.rLoops ++ [o] else st.rLoops,
    cLoops := [c],
    cFactor := if isR then st.cFactor else some a.lowerFactor,
    isInner := some isR }

/-- Successor state of one `_normalize` term with lower factor 1
(lines 166-169): route the governing loop by kind. -/
def stepStatePlain (info : IterInfoE) (loop0 : LoopRV)
    (m2 : List (IterInfoE × LoopRV)) (st : NormSt) : NormSt :=
  let isR : Bool := info.kind == IterKind.R
  { st with
    iterMap := m2,
    sLoops := if isR then st.sLoops else st.sLoops ++ [loop0],
    rLoops := if isR then st.rLoops ++ [loop0] else st.rLoops,
    isInner := some isR }

/-- The term loop of `_normalize` (lines 154-169): pop the source
variable of each term, split its loop when the lower factor exceeds 1
(aborting on a second such split), and route the governing loop into
the spatial or reduction group by kind. -/
def normArgsGo : List IterSplit → NormSt → Option NormAbort × NormSt
  | [], st => (none, st)
  | a :: rest, st =>
      match popVar a.source st.iterMap with
      | none => (some .fatal, st)
      | some ((info, loop0), m2) =>
          if 1 < a.lowerFactor then
            match st.cLoops with
            | _ :: _ => (some .noMatch, { st with iterMap := m2 })
            | [] => normArgsGo rest (stepStateSplit a info loop0 m2 st)
          else normArgsGo rest (stepStatePlain info loop0 m2 st)

/-- The leftover loop of `_normalize` (lines 171-176): an iteration
variable untouched by the access joins the spatial group when spatial
with domain size 1, anything else aborts the match. -/
def normLeftover : List (IterInfoE × LoopRV) → List LoopRV → Option (List LoopRV)
  | [], s => some s
  | p :: rest, s =>
      if p.1.kind == IterKind.S && p.1.dom == 1 then normLeftover rest (s ++ [p.2])
      else none

inductive NormRes where
  | noMatch
  | fatal
  | ok (innerRed : Bool) (cFactor : Option Int)
deriving DecidableEq

/-- Number of spatial iteration variables declared on the block. -/
def countS (iters : List IterInfoE) : Nat :=
  (iters.filter (fun i => i.kind == IterKind.S)).length

/-- Translation of `DecodeGEMV._normalize`.  The two `assert`
statements of the source (non-empty spatial and reduction groups) are
the `fatal` results. -/
def normalizeModel (im : List (IterInfoE × LoopRV)) (access : IterSum)
    (sch : SchedState) : NormRes × SchedState :=
  if access.base ≠ 0 then (.noMatch, sch)
  else
    match normArgsGo access.args ⟨sch, im, [], [], [], none, none⟩ with
    | (some .noMatch, st) => (.noMatch, st.sched)
    | (some .fatal, st) => (.fatal, st.sched)
    | (none, st) =>
        match normLeftover st.iterMap st.sLoops with
        | none => (.noMatch, st.sched)
        | some sL =>
            if sL = [] then (.fatal, st.sched)
            else if st.rLoops = [] then (.fatal, st.sched)
            else if sL.length ≠ countS (im.map Prod.fst) then (.noMatch, st.sched)
            else
              let (cL, sch2) :=
                match st.cLoops with
                | [] => let (u, s2) := schAddUnitLoop st.sched; ([u], s2)
                | cs => (cs, st.sched)
              let sch3 := schReorder (sL ++ st.rLoops ++ cL) sch2
              let (_, sch4) := schFuse sL sch3
              let (_, sch5) := schFuse st.rLoops sch4
              match st.isInner with
              | some b => (.ok b st.cFactor, sch5)
              | none => (.fatal, sch5)

/-- Translation of the epilogue part of `_sch_inner_reduction`
(lines 221-230): relocate the epilogue under the grid-block loop; on a
broadcast epilogue set the producer result to shared scope, fuse the
remaining epilogue loops, split by the producer thread count and bind
to the thread dimension; otherwise set local scope. -/
def sch_epilogue_reduction (blk epi : BlockE) (lenTx : Int) (bx : LoopRV)
    (st : SchedState) : SchedState :=
  let st := schReverseComputeAtEpi bx st
  match is_broadcast_epilogue blk epi with
  | Except.error _ => { st with failed := true }
  | Except.ok true =>
      let st := schSetScope mainBlk 0 ("shared") st
      match st.epiLoops with
      | _ :: s =>
          let (fused, st) := schFuse s st
          let ((_, tx), st) := schSplit fused lenTx st
          schBind tx ("threadIdx.x") st
      | [] => { st with failed := true }
  | Except.ok false => schSetScope mainBlk 0 ("local") st

/-- Translation of `DecodeGEMV._sch_inner_reduction`. -/
def sch_inner_reduction (adv : Int → Int) (blk : BlockE) (epi : Option BlockE)
    (unrollSpatialFactor : Option Int) (st : SchedState) : SchedState :=
  match st.mainLoops with
  | [_, r, _] =>
      let lenTx := adv r.extent
      let ((_, tx), st) := schSplit r lenTx st
      let st := schRFactor tx 0 st
      match st.rfLoops with
      | [bx, r2, tx2, _] =>
          let st := schReorder [bx, tx2, r2] st
          let st := schBind bx ("blockIdx.x") st
          let st := schBind tx2 ("threadIdx.x") st
          let st := schSetScope rfBlk 0 ("local") st
          let st := schDecomposeReduction r2 st
          let st := schReverseComputeAtMain bx st
          match st.mainLoops with
          | _ :: txw :: srest =>
              let (sF, st) := schFuse srest st
              let st := schReorder [sF, txw] st
              let st :=
                match unrollSpatialFactor with
                | some f =>
                    let ((s2, inner), st) := schSplit sF f st
                    schReorder [s2, txw, inner] st
                | none => st
              let st := schBind txw ("threadIdx.x") st
              match epi with
              | some e => sch_epilogue_reduction blk e lenTx bx st
              | none => st
          | _ => { st with failed := true }
      | _ => { st with failed := true }
  | _ => { st with failed := true }

/-- Translation of the epilogue part of `_sch_inner_spatial`
(lines 266-276), exactly as written in the source: on a broadcast
epilogue the fused epilogue loops are split by `[None, len_tx, len_ty]`
and the two inner loops are bound to `threadIdx.x` and to `threadIdx.x`
again (line 274). -/
def sch_epilogue_spatial (blk epi : BlockE) (lenTx lenTy : Int) (bx : LoopRV)
    (st : SchedState) : SchedState :=
  let st := schReverseComputeAtEpi bx st
  match is_broadcast_epilogue blk epi with
  | Except.error _ => { st with failed := true }
  | Except.ok true =>
      let st := schSetScope mainBlk 0 ("shared") st
      match st.epiLoops with
      | _ :: s =>
          let (fused, st) := schFuse s st
          let ((_, tx, ty), st) := schSplit3 fused lenTx lenTy st
          let st := schBind tx ("threadIdx.x") st
          schBind ty ("threadIdx.x") st
      | [] => { st with failed := true }
  | Except.ok false => schSetScope mainBlk 0 ("local") st

/-- Translation of `DecodeGEMV._sch_inner_spatial`: fixed 16 by 16
thread tiles, not advisor-derived (the target argument of the source is
unused). -/
def sch_inner_spatial (blk : BlockE) (epi : Option BlockE)
    (unrollSpatialFactor : Option Int) (st : SchedState) : SchedState :=
  match st.mainLoops with
  | [s, r, _] =>
      let lenTx : Int := 16
      let lenTy : Int := 16
      let (_, st) := schSplit s lenTx st
      let ((_, ty), st) := schSplit r lenTy st
      let st := schRFactor ty 0 st
      match st.rfLoops with
      | [bx, tx, r2, ty2, _] =>
          let st := schReorder [bx, tx, ty2, r2] st
          let st := schBind tx ("threadIdx.x") st
          let st := schBind ty2 ("threadIdx.y") st
          let st := schBind bx ("blockIdx.x") st
          let st := schSetScope rfBlk 0 ("local") st
          let st := schDecomposeReduction r2 st
          let st := schReverseComputeAtMain bx st
          match st.mainLoops with
          | _ :: rw :: srest =>
              let (sF, st) := schFuse srest st
              let st := schReorder [sF, rw] st
              let (sB, st) :=
                match unrollSpatialFactor with
                | some f =>
                    let ((s2, inner), st) := schSplit sF f st
                    (s2, schReorder [s2, rw, inner] st)
                | none => (sF, st)
              let st := schBind sB ("threadIdx.x") st
              let st := schBind rw ("threadIdx.y") st
              match epi with
              | some e => sch_epilogue_spatial blk e lenTx lenTy bx st
              | none => st
          | _ => { st with failed := true }
      | _ => { st with failed := true }
  | _ => { st with failed := true }

/-- Result of one invocation of the rule: no-match, a raised error, or
a finalized schedule represented by its primitive trace. -/
inductive ApplyResult where
  | noMatch
  | fatal
  | scheduled (trace : List SchOp)
deriving DecidableEq

/-- Mint the initial loops of the producer, one per iteration
variable. -/
def initLoops : List IterInfoE → Nat → List (IterInfoE × LoopRV) × Nat
  | [], n => ([], n)
  | i :: is, n =>
      let (rest, n2) := initLoops is (n + 1)
      ((i, ⟨n, i.dom⟩) :: rest, n2)

def prodSpatial (iters : List IterInfoE) : Int :=
  (iters.filter (fun i => i.kind == IterKind.S)).foldr (fun i a => i.dom * a) 1

def prodDoms (iters : List IterInfoE) : Int :=
  iters.foldr (fun i a => i.dom * a) 1

/-- The schedule state at entry of `_normalize`. -/
def initState (bi : BlockInfoE) (epi : Option BlockInfoE) :
    List (IterInfoE × LoopRV) × SchedState :=
  let (im, n) := initLoops bi.iters 0
  (im,
    { nextId := n, mainLoops := im.map Prod.snd, rfLoops := [], epiLoops := [],
      rfFactorExt := 0, origSpatialProd := prodSpatial bi.iters,
      epiSpatialProd := match epi with | some e => prodDoms e.iters | none => 1,
      trace := [], failed := false })

/-- The body of `DecodeGEMV.apply` after the block-count checks
(lines 115-142).  The external arith normalizer `nts` and the device
thread advisor `adv` are taken as parameters. -/
def applyMain (nts : PExpr → List (Nat × Int) → IterSum) (adv : Int → Int)
    (bi : BlockInfoE) (epi : Option BlockInfoE) : ApplyResult :=
  if !bi.is_reduction || bi.block.writes.length != 1
      || (get_reduction_expr bi.block).isNone then .noMatch
  else
    match detect_dominant_read bi.block with
    | Except.error _ => .fatal
    | Except.ok expr =>
        let (im, st0) := initState bi epi
        let access := nts expr (bi.block.iter_vars.map (fun i => (i.var, i.dom)))
        match normalizeModel im access st0 with
        | (.noMatch, _) => .noMatch
        | (.fatal, _) => .fatal
        | (.ok inner cf, st) =>
            let st2 :=
              if inner then sch_inner_reduction adv bi.block (epi.map (fun e => e.block)) cf st
              else sch_inner_spatial bi.block (epi.map (fun e => e.block)) cf st
            if st2.failed then .fatal else .scheduled st2.trace

/-- Translation of `DecodeGEMV.apply` on the block list produced by the
upstream normalizer and inliner: one block means no epilogue, two
blocks require an injective second block, anything else is no
match. -/
def applyModel (nts : PExpr → List (Nat × Int) → IterSum) (adv : Int → Int)
    (infos : List BlockInfoE) : ApplyResult :=
  match infos with
  | [bi] => applyMain nts adv bi none
  | [bi, e] => if e.is_injective then applyMain nts adv bi (some e) else .noMatch
  | _ => .noMatch

/-- All regions of all reads are point accesses (extent 1). -/
def readsExtentsOk (rs : List BufferRegionE) : Prop :=
  ∀ r ∈ rs, ∀ g ∈ r.region, g.extent = 1

instance readsExtentsOkDec (rs : List BufferRegionE) : Decidable (readsExtentsOk rs) := by
  unfold readsExtentsOk
  infer_instance

/-- One step of the dominant-read fold: a later read wins only on a
strictly larger distinct-variable count. -/
def stepBest (b r : BufferRegionE) : BufferRegionE :=
  if readVarCount b < readVarCount r then r else b

/-- Source variables of the access terms. -/
def srcVars (args : List IterSplit) : List Nat := args.map IterSplit.source

/-- Kind of the first iteration-map entry for a variable. -/
def kindIn (im : List (IterInfoE × LoopRV)) (v : Nat) : Option IterKind :=
  match im.find? (fun p => p.1.var == v) with
  | some p => some p.1.kind
  | none => none

/-- Loop of the first iteration-map entry for a variable. -/
def loopIn (im : List (IterInfoE × LoopRV)) (v : Nat) : Option LoopRV :=
  match im.find? (fun p => p.1.var == v) with
  | some p => some p.2
  | none => none

/-- Well-formed access: term sources are pairwise distinct and all
present in the iteration map. -/
def accessWF (args : List IterSplit) (im : List (IterInfoE × LoopRV)) : Prop :=
  (srcVars args).Nodup ∧ ∀ a ∈ args, (kindIn im a.source).isSome

instance accessWFDec (args : List IterSplit) (im : List (IterInfoE × LoopRV)) :
    Decidable (accessWF args im) := by
  unfold accessWF
  infer_instance

/-- Number of split primitives in a trace. -/
def countSplitOps (tr : List SchOp) : Nat :=
  (tr.filter (fun o => match o with | .split _ _ _ => true | _ => false)).length

/-- Trace test: a split of the given loop whose inner (micro-tile) loop
has the given extent. -/
def isSplitOf (l : LoopRV) (f : Int) : SchOp → Bool
  | .split l2 _ i => l2 == l && i.extent == f
  | _ => false

/-- Trace test: a bind of a loop of the given extent to the given
thread tag. -/
def isBindExt (tag : String) (f : Int) : SchOp → Bool
  | .bind l t => t == tag && l.extent == f
  | _ => false

/-- Trace test: a bind to the given thread tag. -/
def isBindTag (tag : String) : SchOp → Bool
  | .bind _ t => t == tag
  | _ => false

/-- Concrete producer block used by the broadcast counterexample: it
writes buffer 5. -/
def ceProd : BlockE :=
  { iter_vars := [⟨0, 1, .S⟩, ⟨1, 4096, .S⟩, ⟨9, 4096, .R⟩],
    reads := [],
    writes := [⟨⟨5, [4, 4]⟩, [⟨.var 1, 1⟩]⟩],
    body := .other }

/-- Concrete epilogue block used by the broadcast counterexample: its
non-trivial iteration variables are 1 and 2, yet its read of buffer 5
references only variable 0 (of domain 1): one distinct variable, fewer
than two, but not a subset of the non-trivial variable set. -/
def ceEpi : BlockE :=
  { iter_vars := [⟨0, 1, .S⟩, ⟨1, 4, .S⟩, ⟨2, 4, .S⟩],
    reads := [⟨⟨5, [4, 4]⟩, [⟨.var 0, 1⟩]⟩],
    writes := [⟨⟨6, [4, 4]⟩, [⟨.var 1, 1⟩, ⟨.var 2, 1⟩]⟩],
    body := .other }

/-- Concrete normalization input for the innerReduction counterexample:
a spatial variable 0 carrying the micro-tile split (lower factor 8)
followed by a reduction variable 1 as the fastest-varying term. -/
def ceIm3 : List (IterInfoE × LoopRV) :=
  [(⟨0, 4096, .S⟩, ⟨0, 4096⟩), (⟨1, 4096, .R⟩, ⟨1, 4096⟩)]

def ceAccess3 : IterSum := ⟨[⟨0, 8⟩, ⟨1, 1⟩], 0⟩

def ceSt3 : SchedState := ⟨2, [⟨0, 4096⟩, ⟨1, 4096⟩], [], [], 0, 4096, 1, [], false⟩

/-- Concrete normalization input whose spatial loop group comes out
empty: a single reduction variable fully consumed by the access. -/
def ceIm6 : List (IterInfoE × LoopRV) := [(⟨0, 4096, .R⟩, ⟨0, 4096⟩)]

def ceAccess6 : IterSum := ⟨[⟨0, 1⟩], 0⟩

def ceSt6 : SchedState := ⟨1, [⟨0, 4096⟩], [], [], 0, 1, 1, [], false⟩

/-- A block with no read region: the dominant-read assertion fires. -/
def ceNoReads : BlockE :=
  { iter_vars := [⟨0, 4096, .S⟩], reads := [], writes := [], body := .other }

/-- Schedule state feeding the epilogue scheduler in the C8 evaluation:
the producer was tiled 16 by 16, 256 threads per block. -/
def ceSt8 : SchedState := ⟨20, [], [], [], 16, 4096, 4096, [], false⟩

/-- The canonical schedule state at the end of `_normalize`: the
producer sits under the fused spatial loop, the fused reduction loop
and the micro-tile loop (arbitrary extents and already-emitted
trace). -/
def postNormState (se re ce rfe osp esp : Int) (tr0 : List SchOp) : SchedState :=
  ⟨3, [⟨0, se⟩, ⟨1, re⟩, ⟨2, ce⟩], [], [], rfe, osp, esp, tr0, false⟩

/-- Drop the trace through the relocation of the producer combine block
under the grid loop, keeping the combine-phase ops that follow. -/
def dropToCombine : List SchOp → List SchOp
  | [] => []
  | SchOp.reverseComputeAt b _ :: rest => if b == mainBlk then rest else dropToCombine rest
  | _ :: rest => dropToCombine rest

/-- The trace emitted by the inner-spatial scheduler from the canonical
post-normalize state. -/
def spatialTrace (blk : BlockE) (epi : Option BlockE) (cf : Option Int)
    (se re ce rfe osp esp : Int) : List SchOp :=
  (sch_inner_spatial blk epi cf (postNormState se re ce rfe osp esp [])).trace

theorem collect_ok (rs : List RangeE) (h : ∀ g ∈ rs, g.extent = 1) :
    collect_vars_used_in_access_region rs = Except.ok (regionVarSet rs) := by
  induction rs with
  | nil => rfl
  | cons r rs ih =>
      have h1 : r.extent = 1 := h r (by simp)
      have h2 : ∀ g ∈ rs, g.extent = 1 := fun g hg => h g (by simp [hg])
      simp only [collect_vars_used_in_access_region, if_pos h1, ih h2, regionVarSet,
        List.foldr_cons]

/-- Claim C10: with a nonzero constant base in the normalized access,
`_normalize` returns the no-match pair immediately, leaving the
schedule untouched (no scheduling primitive is performed). -/
theorem C10_nonzero_base_no_match (im : List (IterInfoE × LoopRV)) (access : IterSum)
    (st : SchedState) (h : access.base ≠ 0) :
    normalizeModel im access st = (.noMatch, st) := by
  unfold normalizeModel
  rw [if_pos h]

theorem C10_nonzero_base_no_match_witness :
    (1 : Int) ≠ 0 ∧ normalizeModel ceIm6 ⟨[⟨0, 1⟩], 1⟩ ceSt6 = (.noMatch, ceSt6) :=
  ⟨by decide, C10_nonzero_base_no_match ceIm6 ⟨[⟨0, 1⟩], 1⟩ ceSt6 (by decide)⟩

/-- Claim C1: whenever the candidate has more than two blocks, or a
non-injective second block, or its first block has more than one write
region or a body not of the cumulative form, the rule answers with the
no-match signal (and raises nothing). -/
theorem C1_shape_violations_no_match (nts : PExpr → List (Nat × Int) → IterSum)
    (adv : Int → Int) (infos : List BlockInfoE)
    (h : 2 < infos.length
       ∨ (∃ b e, infos = [b, e] ∧ e.is_injective = false)
       ∨ (∃ b rest, infos = b :: rest ∧ 1 < b.block.writes.length)
       ∨ (∃ b rest, infos = b :: rest ∧ get_reduction_expr b.block = none)) :
    applyModel nts adv infos = .noMatch := by
  have main : ∀ (b : BlockInfoE) (epi : Option BlockInfoE),
      (1 < b.block.writes.length ∨ get_reduction_expr b.block = none) →
      applyMain nts adv b epi = .noMatch := by
    intro b epi hb
    have hcond : (!b.is_reduction || (b.block.writes.length != 1)
        || (get_reduction_expr b.block).isNone) = true := by
      rcases hb with hb | hb
      · have : b.block.writes.length ≠ 1 := by omega
        simp [this]
      · simp [hb]
    unfold applyMain
    rw [if_pos hcond]
  match infos with
  | [] => rfl
  | [b] =>
      rcases h with h | ⟨b2, e2, h, _⟩ | ⟨b2, rest, h, hw⟩ | ⟨b2, rest, h, hw⟩
      · simp at h
      · simp at h
      · rcases List.cons_eq_cons.mp h with ⟨hb, hrest⟩
        subst hb
        exact main b none (Or.inl hw)
      · rcases List.cons_eq_cons.mp h with ⟨hb, hrest⟩
        subst hb
        exact main b none (Or.inr hw)
  | [b, e] =>
      by_cases hinj : e.is_injective
      · rcases h with h | ⟨b2, e2, h, he⟩ | ⟨b2, rest, h, hw⟩ | ⟨b2, rest, h, hw⟩
        · simp at h
        · rcases List.cons_eq_cons.mp h with ⟨hb, hrest⟩
          rcases List.cons_eq_cons.mp hrest with ⟨hee, _⟩
          subst hee
          rw [hinj] at he
          cases he
        · rcases List.cons_eq_cons.mp h with ⟨hb, _⟩
          subst hb
          simp only [applyModel, if_pos hinj]
          exact main b (some e) (Or.inl hw)
        · rcases List.cons_eq_cons.mp h with ⟨hb, _⟩
          subst hb
          simp only [applyModel, if_pos hinj]
          exact main b (some e) (Or.inr hw)
      · simp only [applyModel]
        rw [if_neg hinj]
  | b :: e :: f :: rest => rfl

theorem C1_shape_violations_no_match_witness :
    2 < ([⟨true, true, [], ceNoReads⟩, ⟨true, true, [], ceNoReads⟩,
        ⟨true, true, [], ceNoReads⟩] : List BlockInfoE).length ∧
    applyModel (fun _ _ => ⟨[], 0⟩) (fun _ => 256)
      [⟨true, true, [], ceNoReads⟩, ⟨true, true, [], ceNoReads⟩,
        ⟨true, true, [], ceNoReads⟩] = .noMatch :=
  ⟨by decide,
    C1_shape_violations_no_match (fun _ _ => ⟨[], 0⟩) (fun _ => 256) _
      (Or.inl (by decide))⟩

theorem broadcastGo_iff (w : List Nat) (nI : Nat) (rs : List BufferRegionE)
    (h : readsExtentsOk rs) :
    broadcastGo w nI rs = Except.ok true ↔
      ∃ r ∈ rs, w.contains r.buffer.id = true ∧ readVarCount r < nI := by
  induction rs with
  | nil => simp [broadcastGo]
  | cons r rs ih =>
      have h1 : ∀ g ∈ r.region, g.extent = 1 := h r (by simp)
      have h2 : readsExtentsOk rs := fun x hx => h x (by simp [hx])
      by_cases hw : w.contains r.buffer.id = true
      · rw [show broadcastGo w nI (r :: rs) =
            (if w.contains r.buffer.id then
              match collect_vars_used_in_access_region r.region with
              | Except.error e => Except.error e
              | Except.ok vs =>
                  if vs.card < nI then Except.ok true else broadcastGo w nI rs
            else broadcastGo w nI rs) from rfl]
        rw [if_pos hw, collect_ok _ h1]
        dsimp only
        by_cases hc : readVarCount r < nI
        · simp only [readVarCount] at hc
          rw [if_pos hc]
          simp only [true_iff]
          exact ⟨r, by simp, hw, hc⟩
        · simp only [readVarCount] at hc
          rw [if_neg hc, ih h2]
          constructor
          · rintro ⟨x, hx, hxw, hxc⟩
            exact ⟨x, by simp [hx], hxw, hxc⟩
          · rintro ⟨x, hx, hxw, hxc⟩
            rcases List.mem_cons.mp hx with hx | hx
            · subst hx
              exact absurd hxc hc
            · exact ⟨x, hx, hxw, hxc⟩
      · rw [show broadcastGo w nI (r :: rs) =
            (if w.contains r.buffer.id then
              match collect_vars_used_in_access_region r.region with
              | Except.error e => Except.error e
              | Except.ok vs =>
                  if vs.card < nI then Except.ok true else broadcastGo w nI rs
            else broadcastGo w nI rs) from rfl]
        rw [if_neg hw, ih h2]
        constructor
        · rintro ⟨x, hx, hxw, hxc⟩
          exact ⟨x, by simp [hx], hxw, hxc⟩
        · rintro ⟨x, hx, hxw, hxc⟩
          rcases List.mem_cons.mp hx with hx | hx
          · subst hx
            exact absurd hxw hw
          · exact ⟨x, hx, hxw, hxc⟩

/-- Claim C2 (amended): the broadcast flag is true exactly when some
epilogue read of a buffer written by the producer references strictly
fewer distinct iteration variables than the number of non-trivial
iteration variables of the epilogue (a cardinality comparison, not a
strict-subset comparison); when the flag is true the producer result
buffer is set to shared scope, and when it is false to local scope, in
both schedulers. -/
theorem C2_broadcast_flag_and_scope :
    (∀ blk epi : BlockE, readsExtentsOk epi.reads →
      (is_broadcast_epilogue blk epi = Except.ok true ↔
        ∃ r ∈ epi.reads, r.buffer.id ∈ blk.writes.map (fun w => w.buffer.id) ∧
          readVarCount r < nontrivialCount epi)) ∧
    (∀ (blk epi : BlockE) (lenTx : Int) (bx : LoopRV) (st : SchedState) (b : Bool),
      is_broadcast_epilogue blk epi = Except.ok b →
      SchOp.setScope mainBlk 0 (if b then ("shared") else ("local"))
        ∈ (sch_epilogue_reduction blk epi lenTx bx st).trace) ∧
    (∀ (blk epi : BlockE) (lenTx lenTy : Int) (bx : LoopRV) (st : SchedState) (b : Bool),
      is_broadcast_epilogue blk epi = Except.ok b →
      SchOp.setScope mainBlk 0 (if b then ("shared") else ("local"))
        ∈ (sch_epilogue_spatial blk epi lenTx lenTy bx st).trace) := by
  refine ⟨?_, ?_, ?_⟩
  · intro blk epi h
    rw [is_broadcast_epilogue, broadcastGo_iff _ _ _ h]
    constructor
    · rintro ⟨x, hx, hxw, hxc⟩
      exact ⟨x, hx, by simpa [List.elem_iff] using hxw, hxc⟩
    · rintro ⟨x, hx, hxw, hxc⟩
      exact ⟨x, hx, by simpa [List.elem_iff] using hxw, hxc⟩
  · intro blk epi lenTx bx st b hb
    cases b with
    | true =>
        simp only [sch_epilogue_reduction, schReverseComputeAtEpi, hb, schSetScope,
          schFuse, schSplit, schBind, onAllLoops, if_true]
        simp
    | false =>
        simp only [sch_epilogue_reduction, schReverseComputeAtEpi, hb, schSetScope,
          if_false]
        simp
  · intro blk epi lenTx lenTy bx st b hb
    cases b with
    | true =>
        simp only [sch_epilogue_spatial, schReverseComputeAtEpi, hb, schSetScope,
          schFuse, schSplit3, schBind, onAllLoops, if_true]
        simp
    | false =>
        simp only [sch_epilogue_spatial, schReverseComputeAtEpi, hb, schSetScope,
          if_false]
        simp

theorem C2_broadcast_flag_and_scope_witness :
    readsExtentsOk ceEpi.reads ∧
    (is_broadcast_epilogue ceProd ceEpi = Except.ok true ↔
      ∃ r ∈ ceEpi.reads, r.buffer.id ∈ ceProd.writes.map (fun w => w.buffer.id) ∧
        readVarCount r < nontrivialCount ceEpi) ∧
    SchOp.setScope mainBlk 0 (if true then ("shared") else ("local"))
      ∈ (sch_epilogue_reduction ceProd ceEpi 256 ⟨0, 256⟩ ceSt8).trace :=
  ⟨by decide, C2_broadcast_flag_and_scope.1 ceProd ceEpi (by decide),
    C2_broadcast_flag_and_scope.2.1 ceProd ceEpi 256 ⟨0, 256⟩ ceSt8 true (by decide)⟩

theorem C2_counterexample :
    is_broadcast_epilogue ceProd ceEpi = Except.ok true ∧ ¬ broadcast_spec ceProd ceEpi :=
  ⟨by decide, by decide⟩

theorem stepBest_count (b r : BufferRegionE) :
    readVarCount (stepBest b r) = max (readVarCount b) (readVarCount r) := by
  unfold stepBest
  split
  · exact (Nat.max_eq_right (le_of_lt (by assumption))).symm
  · exact (Nat.max_eq_left (Nat.le_of_not_lt (by assumption))).symm

theorem maxReadCount_cons (r : BufferRegionE) (rs : List BufferRegionE) :
    maxReadCount (r :: rs) = max (readVarCount r) (maxReadCount rs) := rfl

theorem foldl_stepBest_count (rs : List BufferRegionE) : ∀ b,
    readVarCount (rs.foldl stepBest b) = max (readVarCount b) (maxReadCount rs) := by
  induction rs with
  | nil =>
      intro b
      simp [maxReadCount]
  | cons r rs ih =>
      intro b
      rw [List.foldl_cons, ih, stepBest_count, maxReadCount_cons, Nat.max_assoc]

theorem foldl_stepBest_self (rs : List BufferRegionE) : ∀ b,
    (∀ x ∈ rs, readVarCount x ≤ readVarCount b) → rs.foldl stepBest b = b := by
  induction rs with
  | nil =>
      intro b _
      rfl
  | cons r rs ih =>
      intro b h
      rw [List.foldl_cons,
        show stepBest b r = b from by
          unfold stepBest
          rw [if_neg (Nat.not_lt.mpr (h r (by simp)))]]
      exact ih b (fun x hx => h x (by simp [hx]))

theorem mem_le_maxReadCount (rs : List BufferRegionE) (x : BufferRegionE) :
    x ∈ rs → readVarCount x ≤ maxReadCount rs := by
  induction rs with
  | nil =>
      intro hx
      cases hx
  | cons r rs ih =>
      intro hx
      rcases List.mem_cons.mp hx with h | h
      · subst h
        rw [maxReadCount_cons]
        exact Nat.le_max_left _ _
      · rw [maxReadCount_cons]
        exact le_trans (ih h) (Nat.le_max_right _ _)

theorem find?_max_foldl (rs : List BufferRegionE) : ∀ b,
    (b :: rs).find? (fun r => readVarCount r == maxReadCount (b :: rs)) =
      some (rs.foldl stepBest b) := by
  induction rs with
  | nil =>
      intro b
      have hp : (readVarCount b == maxReadCount [b]) = true := by
        simp [maxReadCount]
      simp [List.find?, hp]
  | cons r rs ih =>
      intro b
      by_cases hb : readVarCount b = maxReadCount (b :: r :: rs)
      · have hall : ∀ x ∈ r :: rs, readVarCount x ≤ readVarCount b := by
          intro x hx
          have h1 := mem_le_maxReadCount (r :: rs) x hx
          have h2 : maxReadCount (r :: rs) ≤ readVarCount b := by
            have := Nat.le_max_right (readVarCount b) (maxReadCount (r :: rs))
            rw [← maxReadCount_cons, ← hb] at this
            exact this
          exact le_trans h1 h2
        rw [List.foldl_cons,
          show stepBest b r = b from by
            unfold stepBest
            rw [if_neg (Nat.not_lt.mpr (hall r (by simp)))],
          foldl_stepBest_self rs b (fun x hx => hall x (by simp [hx]))]
        exact List.find?_cons_of_pos _ (by simp [hb])
      · have hM : readVarCount b ≤ maxReadCount (b :: r :: rs) :=
          mem_le_maxReadCount _ b (by simp)
        have hlt : readVarCount b < maxReadCount (b :: r :: rs) := lt_of_le_of_ne hM hb
        have hMeq : maxReadCount (stepBest b r :: rs) = maxReadCount (b :: r :: rs) := by
          rw [maxReadCount_cons, maxReadCount_cons, maxReadCount_cons, stepBest_count,
            Nat.max_assoc]
        have IH := ih (stepBest b r)
        rw [hMeq] at IH
        rw [List.find?_cons_of_neg _ (by simp [hb]), List.foldl_cons]
        by_cases hbr : readVarCount b < readVarCount r
        · rw [show stepBest b r = r from by
            unfold stepBest
            rw [if_pos hbr]] at IH ⊢
          exact IH
        · rw [show stepBest b r = b from by
            unfold stepBest
            rw [if_neg hbr]] at IH ⊢
          have hpr : ¬ (readVarCount r == maxReadCount (b :: r :: rs)) = true := by
            have h1 : readVarCount r ≤ readVarCount b := Nat.not_lt.mp hbr
            have h2 : readVarCount r < maxReadCount (b :: r :: rs) := lt_of_le_of_lt h1 hlt
            simp [Nat.ne_of_lt h2]
          have hstep : List.find?
              (fun r2 => readVarCount r2 == maxReadCount (b :: r :: rs)) (r :: rs)
              = List.find? (fun r2 => readVarCount r2 == maxReadCount (b :: r :: rs)) rs :=
            List.find?_cons_of_neg _ hpr
          have hstep2 : List.find?
              (fun r2 => readVarCount r2 == maxReadCount (b :: r :: rs)) (b :: rs)
              = List.find? (fun r2 => readVarCount r2 == maxReadCount (b :: r :: rs)) rs :=
            List.find?_cons_of_neg _ (by simp [hb])
          rw [hstep]
          rw [hstep2] at IH
          exact IH

theorem detectLoop_fold (rs : List BufferRegionE) : ∀ b, readsExtentsOk rs →
    detectLoop rs (some b) ((readVarCount b : Int)) =
      Except.ok (some (rs.foldl stepBest b)) := by
  induction rs with
  | nil =>
      intro b _
      rfl
  | cons r rs ih =>
      intro b h
      have h1 : ∀ g ∈ r.region, g.extent = 1 := h r (by simp)
      have h2 : readsExtentsOk rs := fun x hx => h x (by simp [hx])
      simp only [detectLoop]
      rw [collect_ok _ h1]
      dsimp only
      by_cases hbr : readVarCount b < readVarCount r
      · rw [if_pos (by exact_mod_cast hbr), List.foldl_cons,
          show stepBest b r = r from by
            unfold stepBest
            rw [if_pos hbr]]
        exact ih r h2
      · rw [if_neg (by exact_mod_cast hbr), List.foldl_cons,
          show stepBest b r = b from by
            unfold stepBest
            rw [if_neg hbr]]
        exact ih b h2

theorem detectLoop_entry (r : BufferRegionE) (rs : List BufferRegionE)
    (h : readsExtentsOk (r :: rs)) :
    detectLoop (r :: rs) none (-1) = Except.ok (some (rs.foldl stepBest r)) := by
  have h1 : ∀ g ∈ r.region, g.extent = 1 := h r (by simp)
  have h2 : readsExtentsOk rs := fun x hx => h x (by simp [hx])
  simp only [detectLoop]
  rw [collect_ok _ h1]
  dsimp only
  rw [if_pos (by omega)]
  exact detectLoop_fold rs r h2

/-- Claim C4: for a producer with at least one point-access read, the
dominant read is the earliest read referencing the largest number of
distinct iteration variables, and the value handed to normalization is
its flattened linear offset. -/
theorem C4_dominant_read_selection (blk : BlockE) (h1 : blk.reads ≠ [])
    (h2 : readsExtentsOk blk.reads) :
    ∃ d, dominant_read_spec blk.reads = some d ∧
      detect_dominant_read blk =
        Except.ok (offset_of d.buffer (d.region.map RangeE.min)) := by
  obtain ⟨r, rs, hr⟩ := List.exists_cons_of_ne_nil h1
  rw [hr] at h2 ⊢
  refine ⟨rs.foldl stepBest r, ?_, ?_⟩
  · rw [dominant_read_spec, find?_max_foldl]
  · rw [detect_dominant_read, hr, detectLoop_entry r rs h2]

theorem C4_dominant_read_selection_witness :
    (⟨[⟨0, 4, .S⟩, ⟨1, 4, .R⟩],
      [⟨⟨1, [4]⟩, [⟨.var 0, 1⟩]⟩, ⟨⟨2, [4, 4]⟩, [⟨.var 0, 1⟩, ⟨.var 1, 1⟩]⟩],
      [], .other⟩ : BlockE).reads ≠ [] ∧
    readsExtentsOk (⟨[⟨0, 4, .S⟩, ⟨1, 4, .R⟩],
      [⟨⟨1, [4]⟩, [⟨.var 0, 1⟩]⟩, ⟨⟨2, [4, 4]⟩, [⟨.var 0, 1⟩, ⟨.var 1, 1⟩]⟩],
      [], .other⟩ : BlockE).reads ∧
    ∃ d, dominant_read_spec (⟨[⟨0, 4, .S⟩, ⟨1, 4, .R⟩],
      [⟨⟨1, [4]⟩, [⟨.var 0, 1⟩]⟩, ⟨⟨2, [4, 4]⟩, [⟨.var 0, 1⟩, ⟨.var 1, 1⟩]⟩],
      [], .other⟩ : BlockE).reads = some d ∧
      detect_dominant_read (⟨[⟨0, 4, .S⟩, ⟨1, 4, .R⟩],
        [⟨⟨1, [4]⟩, [⟨.var 0, 1⟩]⟩, ⟨⟨2, [4, 4]⟩, [⟨.var 0, 1⟩, ⟨.var 1, 1⟩]⟩],
        [], .other⟩ : BlockE) =
        Except.ok (offset_of d.buffer (d.region.map RangeE.min)) :=
  ⟨by decide, by decide,
    C4_dominant_read_selection _ (by decide) (by decide)⟩

theorem find?_var_cons_ne (p : IterInfoE × LoopRV) (ps : List (IterInfoE × LoopRV))
    (w : Nat) (h : ¬ (p.1.var == w) = true) :
    List.find? (fun x => x.1.var == w) (p :: ps) = List.find? (fun x => x.1.var == w) ps :=
  List.find?_cons_of_neg _ h

theorem find?_var_cons_eq (p : IterInfoE × LoopRV) (ps : List (IterInfoE × LoopRV))
    (w : Nat) (h : (p.1.var == w) = true) :
    List.find? (fun x => x.1.var == w) (p :: ps) = some p :=
  List.find?_cons_of_pos _ h

theorem kindIn_cons_ne (p : IterInfoE × LoopRV) (ps : List (IterInfoE × LoopRV))
    (w : Nat) (h : ¬ (p.1.var == w) = true) : kindIn (p :: ps) w = kindIn ps w := by
  unfold kindIn
  rw [find?_var_cons_ne p ps w h]

theorem kindIn_cons_eq (p : IterInfoE × LoopRV) (ps : List (IterInfoE × LoopRV))
    (w : Nat) (h : (p.1.var == w) = true) : kindIn (p :: ps) w = some p.1.kind := by
  unfold kindIn
  rw [find?_var_cons_eq p ps w h]

theorem loopIn_cons_ne (p : IterInfoE × LoopRV) (ps : List (IterInfoE × LoopRV))
    (w : Nat) (h : ¬ (p.1.var == w) = true) : loopIn (p :: ps) w = loopIn ps w := by
  unfold loopIn
  rw [find?_var_cons_ne p ps w h]

theorem loopIn_cons_eq (p : IterInfoE × LoopRV) (ps : List (IterInfoE × LoopRV))
    (w : Nat) (h : (p.1.var == w) = true) : loopIn (p :: ps) w = some p.2 := by
  unfold loopIn
  rw [find?_var_cons_eq p ps w h]

theorem popVar_some_var (v : Nat) : ∀ (im : List (IterInfoE × LoopRV)) q rest,
    popVar v im = some (q, rest) → q.1.var = v := by
  intro im
  induction im with
  | nil =>
      intro q rest h
      cases h
  | cons p ps ih =>
      intro q rest h
      by_cases hp : p.1.var = v
      · rw [popVar, if_pos hp] at h
        cases h
        exact hp
      · rw [popVar, if_neg hp] at h
        rcases hpp : popVar v ps with _ | ⟨q2, rest2⟩
        · rw [hpp] at h
          cases h
        · rw [hpp] at h
          cases h
          exact ih _ _ hpp

theorem popVar_lookups (v : Nat) : ∀ (im : List (IterInfoE × LoopRV)) q rest,
    popVar v im = some (q, rest) →
    kindIn im v = some q.1.kind ∧ loopIn im v = some q.2 := by
  intro im
  induction im with
  | nil =>
      intro q rest h
      cases h
  | cons p ps ih =>
      intro q rest h
      by_cases hp : p.1.var = v
      · rw [popVar, if_pos hp] at h
        cases h
        exact ⟨kindIn_cons_eq p ps v (by simp [hp]), loopIn_cons_eq p ps v (by simp [hp])⟩
      · rw [popVar, if_neg hp] at h
        rcases hpp : popVar v ps with _ | ⟨q2, rest2⟩
        · rw [hpp] at h
          cases h
        · rw [hpp] at h
          cases h
          have hh := ih _ _ hpp
          rw [kindIn_cons_ne p ps v (by simp [hp]), loopIn_cons_ne p ps v (by simp [hp])]
          exact hh

theorem popVar_preserve (v w : Nat) (hw : w ≠ v) :
    ∀ (im : List (IterInfoE × LoopRV)) q rest, popVar v im = some (q, rest) →
    kindIn rest w = kindIn im w ∧ loopIn rest w = loopIn im w := by
  intro im
  induction im with
  | nil =>
      intro q rest h
      cases h
  | cons p ps ih =>
      intro q rest h
      by_cases hp : p.1.var = v
      · rw [popVar, if_pos hp] at h
        cases h
        have hpw : ¬ (p.1.var == w) = true := by
          simp only [beq_iff_eq, hp]
          exact fun hh => hw hh.symm
        rw [kindIn_cons_ne p ps w hpw, loopIn_cons_ne p ps w hpw]
        exact ⟨rfl, rfl⟩
      · rw [popVar, if_neg hp] at h
        rcases hpp : popVar v ps with _ | ⟨q2, rest2⟩
        · rw [hpp] at h
          cases h
        · rw [hpp] at h
          cases h
          by_cases hpw : (p.1.var == w) = true
          · rw [kindIn_cons_eq p _ w hpw, loopIn_cons_eq p _ w hpw,
              kindIn_cons_eq p ps w hpw, loopIn_cons_eq p ps w hpw]
            exact ⟨rfl, rfl⟩
          · have hh := ih _ _ hpp
            rw [kindIn_cons_ne p _ w hpw, loopIn_cons_ne p _ w hpw,
              kindIn_cons_ne p ps w hpw, loopIn_cons_ne p ps w hpw]
            exact hh

theorem popVar_mem_rest (v : Nat) : ∀ (im : List (IterInfoE × LoopRV)) q rest,
    popVar v im = some (q, rest) → ∀ x ∈ im, x.1.var ≠ v → x ∈ rest := by
  intro im
  induction im with
  | nil =>
      intro q rest h
      cases h
  | cons p ps ih =>
      intro q rest h x hx hxv
      by_cases hp : p.1.var = v
      · rw [popVar, if_pos hp] at h
        cases h
        rcases List.mem_cons.mp hx with hh | hh
        · subst hh
          exact absurd hp hxv
        · exact hh
      · rw [popVar, if_neg hp] at h
        rcases hpp : popVar v ps with _ | ⟨q2, rest2⟩
        · rw [hpp] at h
          cases h
        · rw [hpp] at h
          cases h
          rcases List.mem_cons.mp hx with hh | hh
          · subst hh
            simp
          · exact List.mem_cons.mpr (Or.inr (ih _ _ hpp x hh hxv))

theorem popVar_isSome (v : Nat) : ∀ (im : List (IterInfoE × LoopRV)),
    (kindIn im v).isSome → (popVar v im).isSome := by
  intro im
  induction im with
  | nil =>
      intro h
      simp [kindIn, List.find?] at h
  | cons p ps ih =>
      intro h
      by_cases hp : p.1.var = v
      · rw [popVar, if_pos hp]
        simp
      · rw [popVar, if_neg hp]
        rw [kindIn_cons_ne p ps v (by simp [hp])] at h
        have hh := ih h
        rcases hpp : popVar v ps with _ | ⟨q2, rest2⟩
        · rw [hpp] at hh
          cases hh
        · simp

theorem kindIn_of_mem_nodup (im : List (IterInfoE × LoopRV))
    (hnd : (im.map (fun q => q.1.var)).Nodup) :
    ∀ p ∈ im, kindIn im p.1.var = some p.1.kind := by
  induction im with
  | nil =>
      intro p hp
      cases hp
  | cons q qs ih =>
      intro p hp
      rcases List.mem_cons.mp hp with hh | hh
      · subst hh
        rw [kindIn_cons_eq p qs p.1.var (by simp)]
      · have hq : q.1.var ≠ p.1.var := by
          intro he
          rw [List.map_cons, List.nodup_cons] at hnd
          exact hnd.1 (he ▸ List.mem_map_of_mem (fun x => x.1.var) hh)
        rw [kindIn_cons_ne q qs p.1.var (by simp [hq])]
        exact ih (by
          rw [List.map_cons, List.nodup_cons] at hnd
          exact hnd.2) p hh

theorem normLeftover_eq : ∀ (m : List (IterInfoE × LoopRV)) s,
    normLeftover m s =
      if m.all (fun p => p.1.kind == IterKind.S && p.1.dom == 1)
      then some (s ++ m.map Prod.snd) else none := by
  intro m
  induction m with
  | nil =>
      intro s
      simp [normLeftover]
  | cons p ps ih =>
      intro s
      by_cases hp : (p.1.kind == IterKind.S && p.1.dom == 1) = true
      · rw [normLeftover, if_pos hp, ih]
        by_cases hall : (ps.all (fun p => p.1.kind == IterKind.S && p.1.dom == 1)) = true
        · rw [if_pos hall, if_pos (by simp [List.all_cons, hp, hall])]
          simp
        · rw [if_neg hall, if_neg (by simp [List.all_cons, hall])]
      · rw [normLeftover, if_neg hp, if_neg (by simp [List.all_cons, hp])]

theorem accessWF_tail (a : IterSplit) (rest : List IterSplit)
    (im m2 : List (IterInfoE × LoopRV)) (q : IterInfoE × LoopRV)
    (hWF : accessWF (a :: rest) im) (hpop : popVar a.source im = some (q, m2)) :
    accessWF rest m2 := by
  obtain ⟨hnd, hall⟩ := hWF
  simp only [srcVars, List.map_cons, List.nodup_cons] at hnd
  refine ⟨hnd.2, ?_⟩
  intro a2 ha2
  have hne : a2.source ≠ a.source := by
    intro he
    exact hnd.1 (he ▸ List.mem_map_of_mem IterSplit.source ha2)
  rw [(popVar_preserve a.source a2.source hne im q m2 hpop).1]
  exact hall a2 (by simp [ha2])

theorem stepStateSplit_iterMap (a : IterSplit) (info : IterInfoE) (loop0 : LoopRV)
    (m2 : List (IterInfoE × LoopRV)) (st : NormSt) :
    (stepStateSplit a info loop0 m2 st).iterMap = m2 := rfl

theorem stepStateSplit_trace (a : IterSplit) (info : IterInfoE) (loop0 : LoopRV)
    (m2 : List (IterInfoE × LoopRV)) (st : NormSt) :
    (stepStateSplit a info loop0 m2 st).sched.trace
      = st.sched.trace ++ [SchOp.split loop0
          ⟨st.sched.nextId, splitOuter loop0.extent a.lowerFactor⟩
          ⟨st.sched.nextId + 1, a.lowerFactor⟩] := rfl

theorem stepStateSplit_cLoops (a : IterSplit) (info : IterInfoE) (loop0 : LoopRV)
    (m2 : List (IterInfoE × LoopRV)) (st : NormSt) :
    (stepStateSplit a info loop0 m2 st).cLoops = [⟨st.sched.nextId + 1, a.lowerFactor⟩] := rfl

theorem stepStateSplit_isInner (a : IterSplit) (info : IterInfoE) (loop0 : LoopRV)
    (m2 : List (IterInfoE × LoopRV)) (st : NormSt) :
    (stepStateSplit a info loop0 m2 st).isInner = some (info.kind == IterKind.R) := rfl

theorem stepStateSplit_sLoops (a : IterSplit) (info : IterInfoE) (loop0 : LoopRV)
    (m2 : List (IterInfoE × LoopRV)) (st : NormSt) :
    (stepStateSplit a info loop0 m2 st).sLoops
      = if (info.kind == IterKind.R) = true then st.sLoops
        else st.sLoops ++ [⟨st.sched.nextId, splitOuter loop0.extent a.lowerFactor⟩] := rfl

theorem stepStateSplit_rLoops (a : IterSplit) (info : IterInfoE) (loop0 : LoopRV)
    (m2 : List (IterInfoE × LoopRV)) (st : NormSt) :
    (stepStateSplit a info loop0 m2 st).rLoops
      = if (info.kind == IterKind.R) = true
        then st.rLoops ++ [⟨st.sched.nextId, splitOuter loop0.extent a.lowerFactor⟩]
        else st.rLoops := rfl

theorem stepStateSplit_cFactor (a : IterSplit) (info : IterInfoE) (loop0 : LoopRV)
    (m2 : List (IterInfoE × LoopRV)) (st : NormSt) :
    (stepStateSplit a info loop0 m2 st).cFactor
      = if (info.kind == IterKind.R) = true then st.cFactor
        else some a.lowerFactor := rfl

theorem stepStatePlain_iterMap (info : IterInfoE) (loop0 : LoopRV)
    (m2 : List (IterInfoE × LoopRV)) (st : NormSt) :
    (stepStatePlain info loop0 m2 st).iterMap = m2 := rfl

theorem stepStatePlain_sched (info : IterInfoE) (loop0 : LoopRV)
    (m2 : List (IterInfoE × LoopRV)) (st : NormSt) :
    (stepStatePlain info loop0 m2 st).sched = st.sched := rfl

theorem stepStatePlain_cLoops (info : IterInfoE) (loop0 : LoopRV)
    (m2 : List (IterInfoE × LoopRV)) (st : NormSt) :
    (stepStatePlain info loop0 m2 st).cLoops = st.cLoops := rfl

theorem stepStatePlain_isInner (info : IterInfoE) (loop0 : LoopRV)
    (m2 : List (IterInfoE × LoopRV)) (st : NormSt) :
    (stepStatePlain info loop0 m2 st).isInner = some (info.kind == IterKind.R) := rfl

theorem stepStatePlain_sLoops (info : IterInfoE) (loop0 : LoopRV)
    (m2 : List (IterInfoE × LoopRV)) (st : NormSt) :
    (stepStatePlain info loop0 m2 st).sLoops
      = if (info.kind == IterKind.R) = true then st.sLoops else st.sLoops ++ [loop0] := rfl

theorem stepStatePlain_rLoops (info : IterInfoE) (loop0 : LoopRV)
    (m2 : List (IterInfoE × LoopRV)) (st : NormSt) :
    (stepStatePlain info loop0 m2 st).rLoops
      = if (info.kind == IterKind.R) = true then st.rLoops ++ [loop0] else st.rLoops := rfl

theorem stepStatePlain_cFactor (info : IterInfoE) (loop0 : LoopRV)
    (m2 : List (IterInfoE × LoopRV)) (st : NormSt) :
    (stepStatePlain info loop0 m2 st).cFactor = st.cFactor := rfl

theorem ne_nil_of_pre {l1 l2 : List LoopRV} (h : l1 <+: l2) (h1 : l1 ≠ []) : l2 ≠ [] := by
  intro h2
  subst h2
  exact h1 (List.eq_nil_of_prefix_nil h)

theorem normArgsGo_trace (args : List IterSplit) : ∀ st : NormSt,
    st.sched.trace <+: (normArgsGo args st).2.sched.trace := by
  induction args with
  | nil =>
      intro st
      simp [normArgsGo]
  | cons a rest ih =>
      intro st
      simp only [normArgsGo]
      rcases hpop : popVar a.source st.iterMap with _ | ⟨⟨info, loop0⟩, m2⟩
      · simp
      · dsimp only
        by_cases hlf : 1 < a.lowerFactor
        · rw [if_pos hlf]
          rcases hc : st.cLoops with _ | ⟨c0, cs⟩
          · dsimp only
            refine List.IsPrefix.trans ?_ (ih _)
            rw [stepStateSplit_trace]
            exact List.prefix_append _ _
          · simp
        · rw [if_neg hlf]
          refine List.IsPrefix.trans ?_ (ih _)
          rw [stepStatePlain_sched]

theorem normArgsGo_rLoops_pre (args : List IterSplit) : ∀ st : NormSt,
    st.rLoops <+: (normArgsGo args st).2.rLoops := by
  induction args with
  | nil =>
      intro st
      simp [normArgsGo]
  | cons a rest ih =>
      intro st
      simp only [normArgsGo]
      rcases hpop : popVar a.source st.iterMap with _ | ⟨⟨info, loop0⟩, m2⟩
      · simp
      · dsimp only
        by_cases hlf : 1 < a.lowerFactor
        · rw [if_pos hlf]
          rcases hc : st.cLoops with _ | ⟨c0, cs⟩
          · dsimp only
            refine List.IsPrefix.trans ?_ (ih _)
            rw [stepStateSplit_rLoops]
            split
            · exact List.prefix_append _ _
            · exact List.prefix_rfl
          · simp
        · rw [if_neg hlf]
          refine List.IsPrefix.trans ?_ (ih _)
          rw [stepStatePlain_rLoops]
          split
          · exact List.prefix_append _ _
          · exact List.prefix_rfl

theorem normArgsGo_sLoops_pre (args : List IterSplit) : ∀ st : NormSt,
    st.sLoops <+: (normArgsGo args st).2.sLoops := by
  induction args with
  | nil =>
      intro st
      simp [normArgsGo]
  | cons a rest ih =>
      intro st
      simp only [normArgsGo]
      rcases hpop : popVar a.source st.iterMap with _ | ⟨⟨info, loop0⟩, m2⟩
      · simp
      · dsimp only
        by_cases hlf : 1 < a.lowerFactor
        · rw [if_pos hlf]
          rcases hc : st.cLoops with _ | ⟨c0, cs⟩
          · dsimp only
            refine List.IsPrefix.trans ?_ (ih _)
            rw [stepStateSplit_sLoops]
            split
            · exact List.prefix_rfl
            · exact List.prefix_append _ _
          · simp
        · rw [if_neg hlf]
          refine List.IsPrefix.trans ?_ (ih _)
          rw [stepStatePlain_sLoops]
          split
          · exact List.prefix_rfl
          · exact List.prefix_append _ _

theorem normArgsGo_no_fatal (args : List IterSplit) : ∀ st : NormSt,
    accessWF args st.iterMap → (normArgsGo args st).1 ≠ some NormAbort.fatal := by
  induction args with
  | nil =>
      intro st _
      simp [normArgsGo]
  | cons a rest ih =>
      intro st hWF
      simp only [normArgsGo]
      rcases hpop : popVar a.source st.iterMap with _ | ⟨⟨info, loop0⟩, m2⟩
      · have := popVar_isSome a.source st.iterMap (hWF.2 a (by simp))
        rw [hpop] at this
        cases this
      · dsimp only
        have hWFt := accessWF_tail a rest st.iterMap m2 _ hWF hpop
        by_cases hlf : 1 < a.lowerFactor
        · rw [if_pos hlf]
          rcases hc : st.cLoops with _ | ⟨c0, cs⟩
          · exact ih _ hWFt
          · simp
        · rw [if_neg hlf]
          exact ih _ hWFt

theorem normArgsGo_mem_keep (args : List IterSplit) : ∀ (st : NormSt) p,
    (normArgsGo args st).1 = none → p ∈ st.iterMap → p.1.var ∉ srcVars args →
    p ∈ (normArgsGo args st).2.iterMap := by
  induction args with
  | nil =>
      intro st p _ hp _
      simpa [normArgsGo] using hp
  | cons a rest ih =>
      intro st p hdone hp hvar
      simp only [srcVars, List.map_cons, List.mem_cons, not_or] at hvar
      have hppop : ∀ q m2, popVar a.source st.iterMap = some (q, m2) → p ∈ m2 :=
        fun q m2 hq => popVar_mem_rest a.source st.iterMap q m2 hq p hp hvar.1
      simp only [normArgsGo] at hdone ⊢
      rcases hpop : popVar a.source st.iterMap with _ | ⟨⟨info, loop0⟩, m2⟩
      · rw [hpop] at hdone
        cases hdone
      · rw [hpop] at hdone
        dsimp only at hdone ⊢
        by_cases hlf : 1 < a.lowerFactor
        · rw [if_pos hlf] at hdone ⊢
          rcases hc : st.cLoops with _ | ⟨c0, cs⟩
          · rw [hc] at hdone
            exact ih _ p hdone (hppop _ _ hpop) (by simpa [srcVars] using hvar.2)
          · rw [hc] at hdone
            cases hdone
        · rw [if_neg hlf] at hdone ⊢
          exact ih _ p hdone (hppop _ _ hpop) (by simpa [srcVars] using hvar.2)

theorem normArgsGo_rLoops_ne (args : List IterSplit) : ∀ st : NormSt,
    accessWF args st.iterMap → (normArgsGo args st).1 = none →
    (∃ a ∈ args, kindIn st.iterMap a.source = some IterKind.R) →
    (normArgsGo args st).2.rLoops ≠ [] := by
  induction args with
  | nil =>
      intro st _ _ h
      simp at h
  | cons a rest ih =>
      intro st hWF hdone hex
      simp only [normArgsGo] at hdone ⊢
      rcases hpop : popVar a.source st.iterMap with _ | ⟨⟨info, loop0⟩, m2⟩
      · rw [hpop] at hdone
        cases hdone
      · rw [hpop] at hdone
        dsimp only at hdone ⊢
        have hWFt := accessWF_tail a rest st.iterMap m2 _ hWF hpop
        rcases hex with ⟨aw, haw, hkw⟩
        rcases List.mem_cons.mp haw with heq | hmem
        · subst heq
          have hk : info.kind = IterKind.R := by
            have hh := (popVar_lookups aw.source st.iterMap _ _ hpop).1
            rw [hh] at hkw
            exact Option.some.inj hkw
          have hkb : (info.kind == IterKind.R) = true := by simp [hk]
          by_cases hlf : 1 < aw.lowerFactor
          · rw [if_pos hlf] at hdone ⊢
            rcases hc : st.cLoops with _ | ⟨c0, cs⟩
            · refine ne_nil_of_pre (normArgsGo_rLoops_pre rest _) ?_
              rw [stepStateSplit_rLoops, if_pos hkb]
              simp
            · rw [hc] at hdone
              cases hdone
          · rw [if_neg hlf] at hdone ⊢
            refine ne_nil_of_pre (normArgsGo_rLoops_pre rest _) ?_
            rw [stepStatePlain_rLoops, if_pos hkb]
            simp
        · have hne : aw.source ≠ a.source := by
            intro he
            have hnd := hWF.1
            simp only [srcVars, List.map_cons, List.nodup_cons] at hnd
            exact hnd.1 (he ▸ List.mem_map_of_mem IterSplit.source hmem)
          have hkw2 : kindIn m2 aw.source = some IterKind.R := by
            rw [(popVar_preserve a.source aw.source hne st.iterMap _ m2 hpop).1]
            exact hkw
          by_cases hlf : 1 < a.lowerFactor
          · rw [if_pos hlf] at hdone ⊢
            rcases hc : st.cLoops with _ | ⟨c0, cs⟩
            · rw [hc] at hdone
              exact ih _ hWFt hdone ⟨aw, hmem, hkw2⟩
            · rw [hc] at hdone
              cases hdone
          · rw [if_neg hlf] at hdone ⊢
            exact ih _ hWFt hdone ⟨aw, hmem, hkw2⟩

theorem normArgsGo_sLoops_ne (args : List IterSplit) : ∀ st : NormSt,
    accessWF args st.iterMap → (normArgsGo args st).1 = none →
    (∃ a ∈ args, kindIn st.iterMap a.source = some IterKind.S) →
    (normArgsGo args st).2.sLoops ≠ [] := by
  induction args with
  | nil =>
      intro st _ _ h
      simp at h
  | cons a rest ih =>
      intro st hWF hdone hex
      simp only [normArgsGo] at hdone ⊢
      rcases hpop : popVar a.source st.iterMap with _ | ⟨⟨info, loop0⟩, m2⟩
      · rw [hpop] at hdone
        cases hdone
      · rw [hpop] at hdone
        dsimp only at hdone ⊢
        have hWFt := accessWF_tail a rest st.iterMap m2 _ hWF hpop
        rcases hex with ⟨aw, haw, hkw⟩
        rcases List.mem_cons.mp haw with heq | hmem
        · subst heq
          have hk : info.kind = IterKind.S := by
            have hh := (popVar_lookups aw.source st.iterMap _ _ hpop).1
            rw [hh] at hkw
            exact Option.some.inj hkw
          have hkb : ¬ (info.kind == IterKind.R) = true := by simp [hk]
          by_cases hlf : 1 < aw.lowerFactor
          · rw [if_pos hlf] at hdone ⊢
            rcases hc : st.cLoops with _ | ⟨c0, cs⟩
            · refine ne_nil_of_pre (normArgsGo_sLoops_pre rest _) ?_
              rw [stepStateSplit_sLoops, if_neg hkb]
              simp
            · rw [hc] at hdone
              cases hdone
          · rw [if_neg hlf] at hdone ⊢
            refine ne_nil_of_pre (normArgsGo_sLoops_pre rest _) ?_
            rw [stepStatePlain_sLoops, if_neg hkb]
            simp
        · have hne : aw.source ≠ a.source := by
            intro he
            have hnd := hWF.1
            simp only [srcVars, List.map_cons, List.nodup_cons] at hnd
            exact hnd.1 (he ▸ List.mem_map_of_mem IterSplit.source hmem)
          have hkw2 : kindIn m2 aw.source = some IterKind.S := by
            rw [(popVar_preserve a.source aw.source hne st.iterMap _ m2 hpop).1]
            exact hkw
          by_cases hlf : 1 < a.lowerFactor
          · rw [if_pos hlf] at hdone ⊢
            rcases hc : st.cLoops with _ | ⟨c0, cs⟩
            · rw [hc] at hdone
              exact ih _ hWFt hdone ⟨aw, hmem, hkw2⟩
            · rw [hc] at hdone
              cases hdone
          · rw [if_neg hlf] at hdone ⊢
            exact ih _ hWFt hdone ⟨aw, hmem, hkw2⟩

theorem normArgsGo_isInner_keep (args : List IterSplit) : ∀ st : NormSt,
    st.isInner.isSome → (normArgsGo args st).2.isInner.isSome := by
  induction args with
  | nil =>
      intro st h
      simpa [normArgsGo] using h
  | cons a rest ih =>
      intro st h
      simp only [normArgsGo]
      rcases hpop : popVar a.source st.iterMap with _ | ⟨⟨info, loop0⟩, m2⟩
      · exact h
      · dsimp only
        by_cases hlf : 1 < a.lowerFactor
        · rw [if_pos hlf]
          rcases hc : st.cLoops with _ | ⟨c0, cs⟩
          · exact ih _ (by rw [stepStateSplit_isInner]; simp)
          · exact h
        · rw [if_neg hlf]
          exact ih _ (by rw [stepStatePlain_isInner]; simp)

theorem normArgsGo_isInner_some (a : IterSplit) (rest : List IterSplit) (st : NormSt)
    (hdone : (normArgsGo (a :: rest) st).1 = none) :
    (normArgsGo (a :: rest) st).2.isInner.isSome := by
  simp only [normArgsGo] at hdone ⊢
  rcases hpop : popVar a.source st.iterMap with _ | ⟨⟨info, loop0⟩, m2⟩
  · rw [hpop] at hdone
    cases hdone
  · rw [hpop] at hdone
    dsimp only at hdone ⊢
    by_cases hlf : 1 < a.lowerFactor
    · rw [if_pos hlf] at hdone ⊢
      rcases hc : st.cLoops with _ | ⟨c0, cs⟩
      · exact normArgsGo_isInner_keep rest _ (by rw [stepStateSplit_isInner]; simp)
      · rw [hc] at hdone
        cases hdone
    · rw [if_neg hlf] at hdone ⊢
      exact normArgsGo_isInner_keep rest _ (by rw [stepStatePlain_isInner]; simp)

theorem normArgsGo_last_kind (args : List IterSplit) : ∀ (st : NormSt) (a : IterSplit),
    accessWF args st.iterMap → (normArgsGo args st).1 = none →
    args.getLast? = some a →
    (normArgsGo args st).2.isInner
      = some (decide (kindIn st.iterMap a.source = some IterKind.R)) := by
  induction args with
  | nil =>
      intro st a _ _ hl
      cases hl
  | cons a0 rest ih =>
      intro st a hWF hdone hl
      simp only [normArgsGo] at hdone ⊢
      rcases hpop : popVar a0.source st.iterMap with _ | ⟨⟨info, loop0⟩, m2⟩
      · rw [hpop] at hdone
        cases hdone
      · rw [hpop] at hdone
        dsimp only at hdone ⊢
        have hWFt := accessWF_tail a0 rest st.iterMap m2 _ hWF hpop
        have hkin : kindIn st.iterMap a0.source = some info.kind :=
          (popVar_lookups a0.source st.iterMap _ _ hpop).1
        cases rest with
        | nil =>
            have ha : a = a0 := by
              simp at hl
              exact hl.symm
            subst ha
            have hdec : (info.kind == IterKind.R)
                = decide (kindIn st.iterMap a.source = some IterKind.R) := by
              rw [hkin]
              rcases hk2 : info.kind with _ | _ | _ <;> rfl
            by_cases hlf : 1 < a.lowerFactor
            · rw [if_pos hlf] at hdone ⊢
              rcases hc : st.cLoops with _ | ⟨c0, cs⟩
              · simp only [normArgsGo, stepStateSplit_isInner]
                rw [hdec]
              · rw [hc] at hdone
                cases hdone
            · rw [if_neg hlf] at hdone ⊢
              simp only [normArgsGo, stepStatePlain_isInner]
              rw [hdec]
        | cons a1 rest2 =>
            have hl2 : (a1 :: rest2).getLast? = some a := by
              rw [List.getLast?_cons_cons] at hl
              exact hl
            have hmem : a ∈ a1 :: rest2 := by
              obtain ⟨hne, he⟩ := List.mem_getLast?_eq_getLast
                (show a ∈ (a1 :: rest2).getLast? from hl2)
              rw [he]
              exact List.getLast_mem hne
            have hane : a.source ≠ a0.source := by
              intro he
              have hnd := hWF.1
              simp only [srcVars, List.map_cons, List.nodup_cons] at hnd
              exact hnd.1 (he ▸ List.mem_map_of_mem IterSplit.source hmem)
            have hkeq : kindIn m2 a.source = kindIn st.iterMap a.source :=
              (popVar_preserve a0.source a.source hane st.iterMap _ m2 hpop).1
            by_cases hlf : 1 < a0.lowerFactor
            · rw [if_pos hlf] at hdone ⊢
              rcases hc : st.cLoops with _ | ⟨c0, cs⟩
              · rw [hc] at hdone
                rw [ih _ a hWFt hdone hl2, stepStateSplit_iterMap, hkeq]
              · rw [hc] at hdone
                cases hdone
            · rw [if_neg hlf] at hdone ⊢
              rw [ih _ a hWFt hdone hl2, stepStatePlain_iterMap, hkeq]

theorem normArgsGo_second_split (args : List IterSplit) : ∀ st : NormSt,
    accessWF args st.iterMap → st.cLoops ≠ [] →
    (∃ a ∈ args, 1 < a.lowerFactor) →
    (normArgsGo args st).1 = some NormAbort.noMatch ∧
    (normArgsGo args st).2.sched = st.sched := by
  induction args with
  | nil =>
      intro st _ _ h
      simp at h
  | cons a rest ih =>
      intro st hWF hC hex
      simp only [normArgsGo]
      rcases hpop : popVar a.source st.iterMap with _ | ⟨⟨info, loop0⟩, m2⟩
      · have := popVar_isSome a.source st.iterMap (hWF.2 a (by simp))
        rw [hpop] at this
        cases this
      · dsimp only
        have hWFt := accessWF_tail a rest st.iterMap m2 _ hWF hpop
        by_cases hlf : 1 < a.lowerFactor
        · rw [if_pos hlf]
          rcases hc : st.cLoops with _ | ⟨c0, cs⟩
          · exact absurd hc hC
          · exact ⟨rfl, rfl⟩
        · rw [if_neg hlf]
          have hex2 : ∃ x ∈ rest, 1 < x.lowerFactor := by
            rcases hex with ⟨x, hx, hxl⟩
            rcases List.mem_cons.mp hx with he | he
            · subst he
              exact absurd hxl hlf
            · exact ⟨x, he, hxl⟩
          have hres := ih (stepStatePlain info loop0 m2 st) hWFt
            (by rw [stepStatePlain_cLoops]; exact hC) hex2
          refine ⟨hres.1, ?_⟩
          rw [hres.2, stepStatePlain_sched]

theorem normArgsGo_two_splits (args : List IterSplit) : ∀ st : NormSt,
    accessWF args st.iterMap → st.cLoops = [] →
    2 ≤ (args.filter (fun x => 1 < x.lowerFactor)).length →
    (normArgsGo args st).1 = some NormAbort.noMatch ∧
    ∃ l o c, (normArgsGo args st).2.sched.trace = st.sched.trace ++ [SchOp.split l o c] := by
  induction args with
  | nil =>
      intro st _ _ h
      simp at h
  | cons a rest ih =>
      intro st hWF hC h2
      simp only [normArgsGo]
      rcases hpop : popVar a.source st.iterMap with _ | ⟨⟨info, loop0⟩, m2⟩
      · have := popVar_isSome a.source st.iterMap (hWF.2 a (by simp))
        rw [hpop] at this
        cases this
      · dsimp only
        have hWFt := accessWF_tail a rest st.iterMap m2 _ hWF hpop
        by_cases hlf : 1 < a.lowerFactor
        · rw [if_pos hlf]
          rcases hc : st.cLoops with _ | ⟨c0, cs⟩
          · rw [List.filter_cons_of_pos (by simp [hlf])] at h2
            have hlen : 0 < (rest.filter (fun x => 1 < x.lowerFactor)).length := by
              rw [List.length_cons] at h2
              omega
            have hrest : ∃ x ∈ rest, 1 < x.lowerFactor := by
              rcases List.exists_mem_of_ne_nil _ (List.ne_nil_of_length_pos hlen) with ⟨x, hx⟩
              exact ⟨x, List.mem_of_mem_filter hx, by
                have hhx := List.of_mem_filter hx
                simpa using hhx⟩
            have hres := normArgsGo_second_split rest (stepStateSplit a info loop0 m2 st)
              hWFt (by rw [stepStateSplit_cLoops]; simp) hrest
            refine ⟨hres.1, loop0,
              ⟨st.sched.nextId, splitOuter loop0.extent a.lowerFactor⟩,
              ⟨st.sched.nextId + 1, a.lowerFactor⟩, ?_⟩
            rw [hres.2, stepStateSplit_trace]
          · exact absurd hc (by simp [hC])
        · rw [if_neg hlf]
          rw [List.filter_cons_of_neg (by simp [hlf])] at h2
          have hres := ih (stepStatePlain info loop0 m2 st) hWFt
            (by rw [stepStatePlain_cLoops]; exact hC) h2
          refine ⟨hres.1, ?_⟩
          obtain ⟨l, o, c, hresT⟩ := hres.2
          exact ⟨l, o, c, by rw [hresT, stepStatePlain_sched]⟩

theorem normArgsGo_single_split (args : List IterSplit) : ∀ (st : NormSt) (aW : IterSplit),
    accessWF args st.iterMap → st.cLoops = [] → aW ∈ args → 1 < aW.lowerFactor →
    (normArgsGo args st).1 = none →
    ∃ l o c, loopIn st.iterMap aW.source = some l ∧
      SchOp.split l o c ∈ (normArgsGo args st).2.sched.trace ∧
      c.extent = aW.lowerFactor := by
  induction args with
  | nil =>
      intro st aW _ _ hmem
      cases hmem
  | cons a rest ih =>
      intro st aW hWF hC hmem hlfW hdone
      simp only [normArgsGo] at hdone ⊢
      rcases hpop : popVar a.source st.iterMap with _ | ⟨⟨info, loop0⟩, m2⟩
      · rw [hpop] at hdone
        cases hdone
      · rw [hpop] at hdone
        dsimp only at hdone ⊢
        have hWFt := accessWF_tail a rest st.iterMap m2 _ hWF hpop
        rcases List.mem_cons.mp hmem with heq | hmem2
        · subst heq
          rw [if_pos hlfW] at hdone ⊢
          rcases hc : st.cLoops with _ | ⟨c0, cs⟩
          · rw [hc] at hdone
            refine ⟨loop0, ⟨st.sched.nextId, splitOuter loop0.extent aW.lowerFactor⟩,
              ⟨st.sched.nextId + 1, aW.lowerFactor⟩,
              (popVar_lookups aW.source st.iterMap _ _ hpop).2, ?_, rfl⟩
            refine (normArgsGo_trace rest _).subset ?_
            rw [stepStateSplit_trace]
            simp
          · rw [hc] at hdone
            cases hdone
        · by_cases hlf : 1 < a.lowerFactor
          · rw [if_pos hlf] at hdone ⊢
            rcases hc : st.cLoops with _ | ⟨c0, cs⟩
            · rw [hc] at hdone
              have hres := normArgsGo_second_split rest (stepStateSplit a info loop0 m2 st)
                hWFt (by rw [stepStateSplit_cLoops]; simp) ⟨aW, hmem2, hlfW⟩
              rw [hres.1] at hdone
              cases hdone
            · rw [hc] at hdone
              cases hdone
          · rw [if_neg hlf] at hdone ⊢
            have hane : aW.source ≠ a.source := by
              intro he
              have hnd := hWF.1
              simp only [srcVars, List.map_cons, List.nodup_cons] at hnd
              exact hnd.1 (he ▸ List.mem_map_of_mem IterSplit.source hmem2)
            obtain ⟨l, o, c, hl, hmm, hce⟩ := ih (stepStatePlain info loop0 m2 st) aW hWFt
              (by rw [stepStatePlain_cLoops]; exact hC) hmem2 hlfW hdone
            refine ⟨l, o, c, ?_, hmm, hce⟩
            rw [← (popVar_preserve a.source aW.source hane st.iterMap _ m2 hpop).2]
            rw [← stepStatePlain_iterMap info loop0 m2 st]
            exact hl

theorem normalizeModel_ok_elim (im : List (IterInfoE × LoopRV)) (access : IterSum)
    (st : SchedState) (b : Bool) (cf : Option Int) (st2 : SchedState)
    (h : normalizeModel im access st = (NormRes.ok b cf, st2)) :
    access.base = 0 ∧
    ∃ st1, normArgsGo access.args ⟨st, im, [], [], [], none, none⟩ = (none, st1) ∧
      st1.isInner = some b ∧ st1.cFactor = cf ∧ st1.sched.trace <+: st2.trace := by
  unfold normalizeModel at h
  by_cases hb : access.base ≠ 0
  · rw [if_pos hb] at h
    simp [Prod.ext_iff] at h
  · rw [if_neg hb] at h
    push_neg at hb
    refine ⟨hb, ?_⟩
    rcases hgo : normArgsGo access.args ⟨st, im, [], [], [], none, none⟩ with ⟨ab, st1⟩
    rw [hgo] at h
    match ab with
    | some NormAbort.noMatch => simp [Prod.ext_iff] at h
    | some NormAbort.fatal => simp [Prod.ext_iff] at h
    | none =>
        dsimp only at h
        refine ⟨st1, rfl, ?_⟩
        rcases hleft : normLeftover st1.iterMap st1.sLoops with _ | sL
        · rw [hleft] at h
          simp [Prod.ext_iff] at h
        · rw [hleft] at h
          dsimp only at h
          by_cases hsl : sL = []
          · rw [if_pos hsl] at h
            simp [Prod.ext_iff] at h
          · rw [if_neg hsl] at h
            by_cases hrl : st1.rLoops = []
            · rw [if_pos hrl] at h
              simp [Prod.ext_iff] at h
            · rw [if_neg hrl] at h
              by_cases hlen : sL.length ≠ countS (im.map Prod.fst)
              · rw [if_pos hlen] at h
                simp [Prod.ext_iff] at h
              · rw [if_neg hlen] at h
                rcases hc1 : st1.cLoops with _ | ⟨c0, cs⟩
                · rw [hc1] at h
                  dsimp only at h
                  rcases hin : st1.isInner with _ | bb
                  · rw [hin] at h
                    simp [Prod.ext_iff] at h
                  · rw [hin] at h
                    dsimp only at h
                    cases h
                    refine ⟨rfl, rfl, ?_⟩
                    simp only [schFuse, schReorder, schAddUnitLoop]
                    exact ((List.prefix_append _ _).trans
                      ((List.prefix_append _ _).trans
                        (List.prefix_append _ _))).trans (List.prefix_append _ _)
                · rw [hc1] at h
                  dsimp only at h
                  rcases hin : st1.isInner with _ | bb
                  · rw [hin] at h
                    simp [Prod.ext_iff] at h
                  · rw [hin] at h
                    dsimp only at h
                    cases h
                    refine ⟨rfl, rfl, ?_⟩
                    simp only [schFuse, schReorder]
                    exact ((List.prefix_append _ _).trans
                      (List.prefix_append _ _)).trans (List.prefix_append _ _)

theorem normalizeModel_not_fatal (im : List (IterInfoE × LoopRV)) (access : IterSum)
    (st : SchedState) (hWF : accessWF access.args im)
    (hnd : (im.map (fun q => q.1.var)).Nodup)
    (hR : ∃ a ∈ access.args, kindIn im a.source = some IterKind.R)
    (hS : ∃ p ∈ im, p.1.kind = IterKind.S) :
    (normalizeModel im access st).1 ≠ NormRes.fatal := by
  unfold normalizeModel
  by_cases hb : access.base ≠ 0
  · rw [if_pos hb]
    simp
  · rw [if_neg hb]
    rcases hgo : normArgsGo access.args ⟨st, im, [], [], [], none, none⟩ with ⟨ab, st1⟩
    match hab : ab with
    | some NormAbort.noMatch => simp
    | some NormAbort.fatal =>
        exact absurd (by rw [hgo] : (normArgsGo access.args
            ⟨st, im, [], [], [], none, none⟩).1 = some NormAbort.fatal)
          (normArgsGo_no_fatal access.args _ hWF)
    | none =>
        dsimp only
        have hgo1 : (normArgsGo access.args ⟨st, im, [], [], [], none, none⟩).1 = none := by
          rw [hgo]
        have hgo2 : (normArgsGo access.args ⟨st, im, [], [], [], none, none⟩).2 = st1 := by
          rw [hgo]
        rcases hleft : normLeftover st1.iterMap st1.sLoops with _ | sL
        · simp
        · dsimp only
          rw [normLeftover_eq] at hleft
          by_cases hall : (st1.iterMap.all
              (fun p => p.1.kind == IterKind.S && p.1.dom == 1)) = true
          · rw [if_pos hall] at hleft
            have hsleq : sL = st1.sLoops ++ st1.iterMap.map Prod.snd :=
              (Option.some.inj hleft).symm
            have hsl : sL ≠ [] := by
              rcases hS with ⟨p, hp, hpk⟩
              by_cases hin : p.1.var ∈ srcVars access.args
              · obtain ⟨a, ha, hasrc⟩ := List.mem_map.mp hin
                have hkin : kindIn im a.source = some IterKind.S := by
                  rw [hasrc]
                  rw [kindIn_of_mem_nodup im hnd p hp, hpk]
                have hsne := normArgsGo_sLoops_ne access.args
                  ⟨st, im, [], [], [], none, none⟩ hWF hgo1 ⟨a, ha, hkin⟩
                rw [hgo2] at hsne
                rw [hsleq]
                intro hco
                rcases List.append_eq_nil.mp hco with ⟨h1, _⟩
                exact hsne h1
              · have hkeep := normArgsGo_mem_keep access.args
                  ⟨st, im, [], [], [], none, none⟩ p hgo1 hp hin
                rw [hgo2] at hkeep
                rw [hsleq]
                intro hco
                rcases List.append_eq_nil.mp hco with ⟨_, h2⟩
                rw [List.map_eq_nil_iff] at h2
                rw [h2] at hkeep
                cases hkeep
            have hrl : st1.rLoops ≠ [] := by
              have := normArgsGo_rLoops_ne access.args
                ⟨st, im, [], [], [], none, none⟩ hWF hgo1 hR
              rw [hgo2] at this
              exact this
            rw [if_neg hsl, if_neg hrl]
            by_cases hlen : sL.length ≠ countS (im.map Prod.fst)
            · rw [if_pos hlen]
              simp
            · rw [if_neg hlen]
              have hsome : st1.isInner.isSome := by
                rcases hR with ⟨a, ha, _⟩
                rcases hargs : access.args with _ | ⟨a0, rest⟩
                · rw [hargs] at ha
                  cases ha
                · have := normArgsGo_isInner_some a0 rest
                    ⟨st, im, [], [], [], none, none⟩ (by rw [← hargs, hgo1])
                  rw [hargs] at hgo2
                  rw [hgo2] at this
                  exact this
              rcases hc1 : st1.cLoops with _ | ⟨c0, cs⟩
              · dsimp only
                rcases hin : st1.isInner with _ | bb
                · rw [hin] at hsome
                  cases hsome
                · simp
              · dsimp only
                rcases hin : st1.isInner with _ | bb
                · rw [hin] at hsome
                  cases hsome
                · simp
          · rw [if_neg hall] at hleft
            cases hleft

/-- Claim C3 (amended): the returned innerReduction flag is the kind of
the last (fastest-varying) term of the normalized access: true exactly
when that term ranges over a Reduce iteration variable.  It is not
determined by where the micro-tile split landed: the split may sit on a
Spatial loop while the flag is still true. -/
theorem C3_inner_reduction_flag (im : List (IterInfoE × LoopRV)) (access : IterSum)
    (st : SchedState) (b : Bool) (cf : Option Int) (st2 : SchedState)
    (hWF : accessWF access.args im)
    (h : normalizeModel im access st = (NormRes.ok b cf, st2)) :
    ∃ a, access.args.getLast? = some a ∧
      (b = true ↔ kindIn im a.source = some IterKind.R) := by
  obtain ⟨hb0, st1, hgo, hin, _, _⟩ := normalizeModel_ok_elim im access st b cf st2 h
  rcases hargs : access.args with _ | ⟨a0, rest⟩
  · rw [hargs] at hgo
    rw [show normArgsGo [] (⟨st, im, [], [], [], none, none⟩ : NormSt)
        = (none, ⟨st, im, [], [], [], none, none⟩) from rfl] at hgo
    cases hgo
    cases hin
  · have hl : ∃ a, (a0 :: rest).getLast? = some a :=
      ⟨(a0 :: rest).getLast (List.cons_ne_nil a0 rest),
        List.getLast?_eq_getLast_of_ne_nil (List.cons_ne_nil a0 rest)⟩
    obtain ⟨a, hl⟩ := hl
    refine ⟨a, hl, ?_⟩
    have hlast := normArgsGo_last_kind (a0 :: rest)
      ⟨st, im, [], [], [], none, none⟩ a (hargs ▸ hWF) (by rw [← hargs, hgo]) hl
    rw [← hargs, hgo] at hlast
    rw [hin] at hlast
    have hb : b = decide (kindIn im a.source = some IterKind.R) := Option.some.inj hlast
    rw [hb]
    simp

theorem C3_counterexample :
    (normalizeModel ceIm3 ceAccess3 ceSt3).1 = NormRes.ok true (some 8) ∧
    ceAccess3.args = [⟨0, 8⟩, ⟨1, 1⟩] ∧
    kindIn ceIm3 0 = some IterKind.S := by
  refine ⟨by decide, by decide, by decide⟩

theorem C3_inner_reduction_flag_witness :
    accessWF ceAccess3.args ceIm3 ∧
    ∃ a, ceAccess3.args.getLast? = some a ∧
      ((normalizeModel ceIm3 ceAccess3 ceSt3).1 = NormRes.ok true (some 8) →
        (true = true ↔ kindIn ceIm3 a.source = some IterKind.R)) := by
  refine ⟨by decide, ?_⟩
  obtain ⟨a, hl, hiff⟩ := C3_inner_reduction_flag ceIm3 ceAccess3 ceSt3 true (some 8)
    (normalizeModel ceIm3 ceAccess3 ceSt3).2 (by decide) rfl
  exact ⟨a, hl, fun _ => hiff⟩

/-- Claim C5: two or more terms of the normalized access with a lower
factor above 1 make `_normalize` return the no-match pair after having
performed exactly one micro-tile split; a single such term splits its
governing loop into an outer loop and an inner micro-tile loop of that
extent. -/
theorem C5_micro_tile_split_limit :
    (∀ (im : List (IterInfoE × LoopRV)) (access : IterSum) (st : SchedState),
      accessWF access.args im → access.base = 0 →
      2 ≤ (access.args.filter (fun x => 1 < x.lowerFactor)).length →
      (normalizeModel im access st).1 = NormRes.noMatch ∧
      ∃ l o c, (normalizeModel im access st).2.trace = st.trace ++ [SchOp.split l o c]) ∧
    (∀ (im : List (IterInfoE × LoopRV)) (access : IterSum) (st : SchedState)
        (aW : IterSplit) (b : Bool) (cf : Option Int) (st2 : SchedState),
      accessWF access.args im → aW ∈ access.args → 1 < aW.lowerFactor →
      normalizeModel im access st = (NormRes.ok b cf, st2) →
      ∃ l o c, loopIn im aW.source = some l ∧
        SchOp.split l o c ∈ st2.trace ∧ c.extent = aW.lowerFactor) := by
  constructor
  · intro im access st hWF hb0 h2
    have hres := normArgsGo_two_splits access.args
      ⟨st, im, [], [], [], none, none⟩ hWF rfl h2
    unfold normalizeModel
    rw [if_neg (by rw [hb0]; exact fun hh => hh rfl)]
    rcases hgo : normArgsGo access.args ⟨st, im, [], [], [], none, none⟩ with ⟨ab, st1⟩
    rw [hgo] at hres
    rw [show ab = some NormAbort.noMatch from hres.1]
    exact ⟨rfl, hres.2⟩
  · intro im access st aW b cf st2 hWF hmem hlf h
    obtain ⟨hb0, st1, hgo, _, _, hpre⟩ := normalizeModel_ok_elim im access st b cf st2 h
    obtain ⟨l, o, c, hl, hmm, hce⟩ := normArgsGo_single_split access.args
      ⟨st, im, [], [], [], none, none⟩ aW hWF rfl hmem hlf (by rw [hgo])
    rw [hgo] at hmm
    exact ⟨l, o, c, hl, hpre.subset hmm, hce⟩

theorem C5_micro_tile_split_limit_witness :
    (accessWF ([⟨0, 4⟩, ⟨1, 8⟩] : List IterSplit) ceIm3 ∧
      (normalizeModel ceIm3 ⟨[⟨0, 4⟩, ⟨1, 8⟩], 0⟩ ceSt3).1 = NormRes.noMatch ∧
      ∃ l o c, (normalizeModel ceIm3 ⟨[⟨0, 4⟩, ⟨1, 8⟩], 0⟩ ceSt3).2.trace
        = ceSt3.trace ++ [SchOp.split l o c]) ∧
    (accessWF ceAccess3.args ceIm3 ∧
      ∃ l o c, loopIn ceIm3 0 = some l ∧
        SchOp.split l o c ∈ (normalizeModel ceIm3 ceAccess3 ceSt3).2.trace ∧
        c.extent = 8) := by
  constructor
  · refine ⟨by decide, ?_⟩
    exact C5_micro_tile_split_limit.1 ceIm3 ⟨[⟨0, 4⟩, ⟨1, 8⟩], 0⟩ ceSt3
      (by decide) (by decide) (by decide)
  · refine ⟨by decide, ?_⟩
    exact C5_micro_tile_split_limit.2 ceIm3 ceAccess3 ceSt3 ⟨0, 8⟩ true (some 8)
      (normalizeModel ceIm3 ceAccess3 ceSt3).2 (by decide) (by decide) (by decide) rfl

/-- Claim C6 (amended): a producer iteration variable untouched by the
dominant access joins the spatial group exactly when it is Spatial with
domain size 1, anything else making the rule return no-match; the rule
also returns no-match when the spatial group misses a declared Spatial
iteration variable; but an empty spatial or reduction group raises a
fatal assertion failure, not the no-match signal. -/
theorem C6_leftover_and_groups :
    (∀ (m : List (IterInfoE × LoopRV)) (s : List LoopRV),
      normLeftover m s =
        if m.all (fun p => p.1.kind == IterKind.S && p.1.dom == 1)
        then some (s ++ m.map Prod.snd) else none) ∧
    (∀ (im : List (IterInfoE × LoopRV)) (access : IterSum) (st : SchedState),
      accessWF access.args im →
      (∃ p ∈ im, p.1.var ∉ srcVars access.args ∧
        ¬ (p.1.kind = IterKind.S ∧ p.1.dom = 1)) →
      (normalizeModel im access st).1 = NormRes.noMatch) ∧
    (∀ (im : List (IterInfoE × LoopRV)) (access : IterSum) (st : SchedState)
        (st1 : NormSt) (sL : List LoopRV), access.base = 0 →
      normArgsGo access.args ⟨st, im, [], [], [], none, none⟩ = (none, st1) →
      normLeftover st1.iterMap st1.sLoops = some sL →
      sL ≠ [] → st1.rLoops ≠ [] →
      sL.length ≠ countS (im.map Prod.fst) →
      (normalizeModel im access st).1 = NormRes.noMatch) ∧
    (∀ (im : List (IterInfoE × LoopRV)) (access : IterSum) (st : SchedState)
        (st1 : NormSt) (sL : List LoopRV), access.base = 0 →
      normArgsGo access.args ⟨st, im, [], [], [], none, none⟩ = (none, st1) →
      normLeftover st1.iterMap st1.sLoops = some sL →
      (sL = [] ∨ st1.rLoops = []) →
      (normalizeModel im access st).1 = NormRes.fatal) := by
  refine ⟨normLeftover_eq, ?_, ?_, ?_⟩
  · intro im access st hWF hbad
    unfold normalizeModel
    by_cases hb : access.base ≠ 0
    · rw [if_pos hb]
    · rw [if_neg hb]
      rcases hgo : normArgsGo access.args ⟨st, im, [], [], [], none, none⟩ with ⟨ab, st1⟩
      match hab : ab with
      | some NormAbort.noMatch => rfl
      | some NormAbort.fatal =>
          exact absurd (by rw [hgo] : (normArgsGo access.args
              ⟨st, im, [], [], [], none, none⟩).1 = some NormAbort.fatal)
            (normArgsGo_no_fatal access.args _ hWF)
      | none =>
          dsimp only
          obtain ⟨p, hp, hpv, hpk⟩ := hbad
          have hkeep := normArgsGo_mem_keep access.args
            ⟨st, im, [], [], [], none, none⟩ p (by rw [hgo]) hp hpv
          rw [hgo] at hkeep
          have hall : ¬ (st1.iterMap.all
              (fun q => q.1.kind == IterKind.S && q.1.dom == 1)) = true := by
            intro hall
            have := List.all_eq_true.mp hall p hkeep
            simp only [Bool.and_eq_true, beq_iff_eq] at this
            exact hpk this
          rw [normLeftover_eq, if_neg hall]
  · intro im access st st1 sL hb0 hgo hleft hsl hrl hlen
    unfold normalizeModel
    rw [if_neg (by rw [hb0]; exact fun hh => hh rfl), hgo]
    dsimp only
    rw [hleft]
    dsimp only
    rw [if_neg hsl, if_neg hrl, if_pos hlen]
  · intro im access st st1 sL hb0 hgo hleft hcase
    unfold normalizeModel
    rw [if_neg (by rw [hb0]; exact fun hh => hh rfl), hgo]
    dsimp only
    rw [hleft]
    dsimp only
    rcases hcase with hsl | hrl
    · rw [if_pos hsl]
    · by_cases hsl : sL = []
      · rw [if_pos hsl]
      · rw [if_neg hsl, if_pos hrl]

theorem C6_counterexample :
    (normalizeModel ceIm6 ceAccess6 ceSt6).1 = NormRes.fatal ∧
    NormRes.fatal ≠ NormRes.noMatch := by
  refine ⟨by decide, by decide⟩

theorem C6_leftover_and_groups_witness :
    (normLeftover ceIm6 [] =
      if ceIm6.all (fun p => p.1.kind == IterKind.S && p.1.dom == 1)
      then some ([] ++ ceIm6.map Prod.snd) else none) ∧
    (accessWF ([⟨0, 1⟩] : List IterSplit)
        [(⟨0, 4, .S⟩, ⟨0, 4⟩), (⟨1, 4, .R⟩, ⟨1, 4⟩), (⟨2, 4, .R⟩, ⟨2, 4⟩)] ∧
      (normalizeModel [(⟨0, 4, .S⟩, ⟨0, 4⟩), (⟨1, 4, .R⟩, ⟨1, 4⟩), (⟨2, 4, .R⟩, ⟨2, 4⟩)]
        ⟨[⟨0, 1⟩], 0⟩ ⟨3, [⟨0, 4⟩, ⟨1, 4⟩, ⟨2, 4⟩], [], [], 0, 4, 1, [], false⟩).1
        = NormRes.noMatch) := by
  constructor
  · exact C6_leftover_and_groups.1 ceIm6 []
  · refine ⟨by decide, ?_⟩
    exact C6_leftover_and_groups.2.1 _ _ _ (by decide)
      ⟨(⟨1, 4, .R⟩, ⟨1, 4⟩), by decide, by decide, by decide⟩

/-- Claim C9: the internal assertions never fire for a well-formed
candidate (a dominant read exists when there is at least one
point-access read; normalization never hits its assertions when the
access is well formed, some access term is a Reduce variable and some
producer variable is Spatial); and when their conditions are violated
they produce the fatal error result, not the no-match signal. -/
theorem C9_internal_assertions :
    (∀ blk : BlockE, blk.reads ≠ [] → readsExtentsOk blk.reads →
      ∃ e, detect_dominant_read blk = Except.ok e) ∧
    (∀ (im : List (IterInfoE × LoopRV)) (access : IterSum) (st : SchedState),
      accessWF access.args im →
      (im.map (fun q => q.1.var)).Nodup →
      (∃ a ∈ access.args, kindIn im a.source = some IterKind.R) →
      (∃ p ∈ im, p.1.kind = IterKind.S) →
      (normalizeModel im access st).1 ≠ NormRes.fatal) ∧
    detect_dominant_read ceNoReads = Except.error () ∧
    (normalizeModel ceIm6 ceAccess6 ceSt6).1 = NormRes.fatal := by
  refine ⟨?_, normalizeModel_not_fatal, by decide, by decide⟩
  intro blk h1 h2
  obtain ⟨r, rs, hr⟩ := List.exists_cons_of_ne_nil h1
  rw [hr] at h2
  refine ⟨offset_of (rs.foldl stepBest r).buffer
    ((rs.foldl stepBest r).region.map RangeE.min), ?_⟩
  rw [detect_dominant_read, hr, detectLoop_entry r rs h2]

theorem C9_internal_assertions_witness :
    (ceEpi.reads ≠ [] ∧ readsExtentsOk ceEpi.reads ∧
      ∃ e, detect_dominant_read ceEpi = Except.ok e) ∧
    (accessWF ceAccess3.args ceIm3 ∧
      (ceIm3.map (fun q => q.1.var)).Nodup ∧
      (∃ a ∈ ceAccess3.args, kindIn ceIm3 a.source = some IterKind.R) ∧
      (∃ p ∈ ceIm3, p.1.kind = IterKind.S) ∧
      (normalizeModel ceIm3 ceAccess3 ceSt3).1 ≠ NormRes.fatal) :=
  ⟨⟨by decide, by decide, C9_internal_assertions.1 ceEpi (by decide) (by decide)⟩,
   ⟨by decide, by decide, by decide, by decide,
     C9_internal_assertions.2.1 ceIm3 ceAccess3 ceSt3
       (by decide) (by decide) (by decide) (by decide)⟩⟩

/-- Claim C7: the inner-spatial strategy uses fixed 16 by 16 thread
tiles, not advisor-derived (this scheduler consults no advisor): the
spatial loop and the reduction loop are each split with inner extent
16, a 16-extent tile is bound to threadIdx.x and another to
threadIdx.y, the grid loop to blockIdx.x, and in the combine phase
(the ops after the producer is relocated under the grid loop) the
16-wide factored reduction loop is bound to threadIdx.y while the
output-carrying spatial loop is bound to threadIdx.x. -/
theorem C7_inner_spatial_tiling (blk : BlockE) (epi : Option BlockE) (cf : Option Int)
    (se re ce rfe osp esp : Int) :
    (spatialTrace blk epi cf se re ce rfe osp esp).any (isSplitOf ⟨0, se⟩ 16) = true ∧
    (spatialTrace blk epi cf se re ce rfe osp esp).any (isSplitOf ⟨1, re⟩ 16) = true ∧
    (spatialTrace blk epi cf se re ce rfe osp esp).any
      (isBindExt ("threadIdx.x") 16) = true ∧
    (spatialTrace blk epi cf se re ce rfe osp esp).any
      (isBindExt ("threadIdx.y") 16) = true ∧
    (spatialTrace blk epi cf se re ce rfe osp esp).any (isBindTag ("blockIdx.x")) = true ∧
    (dropToCombine (spatialTrace blk epi cf se re ce rfe osp esp)).any
      (isBindExt ("threadIdx.y") 16) = true ∧
    (dropToCombine (spatialTrace blk epi cf se re ce rfe osp esp)).any
      (isBindTag ("threadIdx.x")) = true := by
  rcases epi with _ | e
  · rcases cf with _ | f <;>
      simp [spatialTrace, sch_inner_spatial, sch_epilogue_spatial, postNormState,
        schSplit, schSplit3, schRFactor, freshMirror, schReorder, schBind, schSetScope,
        schDecomposeReduction, schReverseComputeAtMain, schReverseComputeAtEpi, schFuse,
        onAllLoops, replaceLoop, fuseIn, fuseGo, reorderIn, reorderGo, splitOuter,
        prodExtents, mainBlk, rfBlk, epiBlk, isSplitOf, isBindExt, isBindTag,
        dropToCombine]
  · rcases hbe : is_broadcast_epilogue blk e with u | b
    · rcases cf with _ | f <;>
        simp [spatialTrace, sch_inner_spatial, sch_epilogue_spatial, hbe, postNormState,
          schSplit, schSplit3, schRFactor, freshMirror, schReorder, schBind, schSetScope,
          schDecomposeReduction, schReverseComputeAtMain, schReverseComputeAtEpi,
          schFuse, onAllLoops, replaceLoop, fuseIn, fuseGo, reorderIn, reorderGo,
          splitOuter, prodExtents, mainBlk, rfBlk, epiBlk, isSplitOf, isBindExt,
          isBindTag, dropToCombine]
    · rcases b with _ | _ <;> rcases cf with _ | f <;>
        simp [spatialTrace, sch_inner_spatial, sch_epilogue_spatial, hbe, postNormState,
          schSplit, schSplit3, schRFactor, freshMirror, schReorder, schBind, schSetScope,
          schDecomposeReduction, schReverseComputeAtMain, schReverseComputeAtEpi,
          schFuse, onAllLoops, replaceLoop, fuseIn, fuseGo, reorderIn, reorderGo,
          splitOuter, prodExtents, mainBlk, rfBlk, epiBlk, isSplitOf, isBindExt,
          isBindTag, dropToCombine]

/-- Claim C8 evaluated at a failing input: on an inner-spatial matched
region with a broadcast epilogue, the epilogue loops are fused and
split by `[None, 16, 16]`, but the source (line 274) binds both inner
loops to threadIdx.x: no epilogue loop is bound to threadIdx.y, even
though the producer uses both threadIdx.x and threadIdx.y. -/
theorem C8_epilogue_thread_binding :
    (sch_epilogue_spatial ceProd ceEpi 16 16 ⟨7, 256⟩ ceSt8).trace =
      [SchOp.reverseComputeAt epiBlk ⟨7, 256⟩,
       SchOp.setScope mainBlk 0 ("shared"),
       SchOp.fuse [⟨20, 16⟩] ⟨21, 16⟩,
       SchOp.split3 ⟨21, 16⟩ ⟨22, 1⟩ ⟨23, 16⟩ ⟨24, 16⟩,
       SchOp.bind ⟨23, 16⟩ ("threadIdx.x"),
       SchOp.bind ⟨24, 16⟩ ("threadIdx.x")] ∧
    ((sch_epilogue_spatial ceProd ceEpi 16 16 ⟨7, 256⟩ ceSt8).trace.any
      (isBindTag ("threadIdx.y"))) = false := by
  refine ⟨by decide, by decide⟩

end DecodeGemv
